import Mathlib

/-!
Verification of the propositional-logic core of the GPLC project
(`src/model/formula.py`, `inference_rules.py`, `proof_system.py`,
`truth_table.py`, `validator.py`).

The Python code is shallowly embedded: each Python function becomes an
executable Lean definition with the same name (modulo snake case and the
leading underscore), mutable state becomes explicit state passing, and
fallible code returns `Option` / `Except`.
-/

namespace GPLC

/-- Binary connective kinds, matching the `type` tags of binary AST nodes
in `formula.py` (`AND`, `OR`, `IMPLIES`, `IFF`, `XOR`, `NAND`, `NOR`). -/
inductive BKind where
| AND | OR | IMPLIES | IFF | XOR | NAND | NOR
deriving DecidableEq, Repr, BEq

/-- AST of a formula: `PROP` / `NOT` / binary nodes, as built by
`Formula._parse` in `formula.py`. -/
inductive Ast where
| PROP (value : Char)
| NOT (operand : Ast)
| BIN (kind : BKind) (left right : Ast)
deriving DecidableEq, Repr, BEq

/-- Tokens produced by `Formula._tokenize`. -/
inductive Tok where
| PROP (c : Char)
| AND | OR | NOT | IMPLIES | IFF | XOR | NAND | NOR
| LPAREN | RPAREN
deriving DecidableEq, Repr, BEq

/-- Python `str.isspace` restricted to the ASCII whitespace the code can
meet (`\x20 \t \n \r \x0b \x0c`). -/
def pyIsSpace (c : Char) : Bool :=
  c = ' ' || c = '\t' || c = '\n' || c = '\r' || c = '\x0b' || c = '\x0c'

/-- Python `str.strip`. -/
def pyStrip (cs : List Char) : List Char :=
  ((cs.dropWhile pyIsSpace).reverse.dropWhile pyIsSpace).reverse

/-- `Formula._tokenize`: char scan with two-character lookahead for `->`
and `<->`; any other character is a tokenize error (`none`). -/
def tokenize : List Char → Option (List Tok)
  | [] => some []
  | c :: rest =>
    if pyIsSpace c then tokenize rest
    else if c.isUpper then (tokenize rest).map (Tok.PROP c :: ·)
    else if c = '∧' || c = '&' then (tokenize rest).map (Tok.AND :: ·)
    else if c = '∨' || c = '|' then (tokenize rest).map (Tok.OR :: ·)
    else if c = '¬' || c = '~' then (tokenize rest).map (Tok.NOT :: ·)
    else if c = '→' then (tokenize rest).map (Tok.IMPLIES :: ·)
    else if c = '↔' then (tokenize rest).map (Tok.IFF :: ·)
    else if c = '⊕' || c = '^' then (tokenize rest).map (Tok.XOR :: ·)
    else if c = '↑' then (tokenize rest).map (Tok.NAND :: ·)
    else if c = '↓' then (tokenize rest).map (Tok.NOR :: ·)
    else if c = '-' then
      match rest with
      | '>' :: r2 => (tokenize r2).map (Tok.IMPLIES :: ·)
      | _ => none
    else if c = '<' then
      match rest with
      | '-' :: '>' :: r3 => (tokenize r3).map (Tok.IFF :: ·)
      | _ => none
    else if c = '(' then (tokenize rest).map (Tok.LPAREN :: ·)
    else if c = ')' then (tokenize rest).map (Tok.RPAREN :: ·)
    else none

mutual

/-- `Formula._parse_iff` (lowest precedence, left associative loop). -/
def parse_iff : Nat → List Tok → Option (Ast × List Tok)
  | 0, _ => none
  | Nat.succ f, ts =>
    match parse_implies f ts with
    | none => none
    | some (l, ts') => parse_iff_loop f l ts'

/-- The `while` loop inside `_parse_iff`. -/
def parse_iff_loop : Nat → Ast → List Tok → Option (Ast × List Tok)
  | 0, _, _ => none
  | Nat.succ f, left, ts =>
    match ts with
    | Tok.IFF :: ts' =>
      match parse_implies f ts' with
      | none => none
      | some (r, ts'') => parse_iff_loop f (Ast.BIN .IFF left r) ts''
    | _ => some (left, ts)

/-- `Formula._parse_implies` (right associative). -/
def parse_implies : Nat → List Tok → Option (Ast × List Tok)
  | 0, _ => none
  | Nat.succ f, ts =>
    match parse_or f ts with
    | none => none
    | some (l, ts') =>
      match ts' with
      | Tok.IMPLIES :: ts'' =>
        match parse_implies f ts'' with
        | none => none
        | some (r, rest) => some (Ast.BIN .IMPLIES l r, rest)
      | _ => some (l, ts')

/-- `Formula._parse_or` (handles `OR` and `NOR`). -/
def parse_or : Nat → List Tok → Option (Ast × List Tok)
  | 0, _ => none
  | Nat.succ f, ts =>
    match parse_xor f ts with
    | none => none
    | some (l, ts') => parse_or_loop f l ts'

/-- The `while` loop inside `_parse_or`. -/
def parse_or_loop : Nat → Ast → List Tok → Option (Ast × List Tok)
  | 0, _, _ => none
  | Nat.succ f, left, ts =>
    match ts with
    | Tok.OR :: ts' =>
      match parse_xor f ts' with
      | none => none
      | some (r, ts'') => parse_or_loop f (Ast.BIN .OR left r) ts''
    | Tok.NOR :: ts' =>
      match parse_xor f ts' with
      | none => none
      | some (r, ts'') => parse_or_loop f (Ast.BIN .NOR left r) ts''
    | _ => some (left, ts)

/-- `Formula._parse_xor`. -/
def parse_xor : Nat → List Tok → Option (Ast × List Tok)
  | 0, _ => none
  | Nat.succ f, ts =>
    match parse_and f ts with
    | none => none
    | some (l, ts') => parse_xor_loop f l ts'

/-- The `while` loop inside `_parse_xor`. -/
def parse_xor_loop : Nat → Ast → List Tok → Option (Ast × List Tok)
  | 0, _, _ => none
  | Nat.succ f, left, ts =>
    match ts with
    | Tok.XOR :: ts' =>
      match parse_and f ts' with
      | none => none
      | some (r, ts'') => parse_xor_loop f (Ast.BIN .XOR left r) ts''
    | _ => some (left, ts)

/-- `Formula._parse_and` (handles `AND` and `NAND`). -/
def parse_and : Nat → List Tok → Option (Ast × List Tok)
  | 0, _ => none
  | Nat.succ f, ts =>
    match parse_not f ts with
    | none => none
    | some (l, ts') => parse_and_loop f l ts'

/-- The `while` loop inside `_parse_and`. -/
def parse_and_loop : Nat → Ast → List Tok → Option (Ast × List Tok)
  | 0, _, _ => none
  | Nat.succ f, left, ts =>
    match ts with
    | Tok.AND :: ts' =>
      match parse_not f ts' with
      | none => none
      | some (r, ts'') => parse_and_loop f (Ast.BIN .AND left r) ts''
    | Tok.NAND :: ts' =>
      match parse_not f ts' with
      | none => none
      | some (r, ts'') => parse_and_loop f (Ast.BIN .NAND left r) ts''
    | _ => some (left, ts)

/-- `Formula._parse_not` (stackable negation). -/
def parse_not : Nat → List Tok → Option (Ast × List Tok)
  | 0, _ => none
  | Nat.succ f, ts =>
    match ts with
    | Tok.NOT :: ts' =>
      match parse_not f ts' with
      | none => none
      | some (a, rest) => some (Ast.NOT a, rest)
    | _ => parse_atom f ts

/-- `Formula._parse_atom`: proposition or parenthesised expression. -/
def parse_atom : Nat → List Tok → Option (Ast × List Tok)
  | 0, _ => none
  | Nat.succ f, ts =>
    match ts with
    | Tok.PROP c :: rest => some (Ast.PROP c, rest)
    | Tok.LPAREN :: rest =>
      match parse_iff f rest with
      | some (a, Tok.RPAREN :: rest') => some (a, rest')
      | _ => none
    | _ => none

end

/-- Fuel that is always sufficient for the recursive-descent parser: each
unit of fuel is spent either descending one precedence level (at most 7
in a row) or consuming at least one token. -/
def fuelFor (ts : List Tok) : Nat := 8 * ts.length + 8

/-- `Formula._parse`: tokenize, parse from the top, require that all
tokens were consumed. -/
def parse_chars (cs : List Char) : Option Ast :=
  match tokenize cs with
  | none => none
  | some [] => none
  | some ts =>
    match parse_iff (fuelFor ts) ts with
    | some (a, []) => some a
    | _ => none

/-- Operator precedence table from `Formula._needs_parentheses`. -/
def prec : BKind → Nat
  | .IFF => 1
  | .IMPLIES => 2
  | .OR => 3
  | .NOR => 3
  | .XOR => 4
  | .AND => 5
  | .NAND => 5

/-- `Formula._needs_parentheses`. -/
def needs_parens (child : Ast) (parent : BKind) (is_left : Bool) : Bool :=
  match child with
  | .PROP _ => false
  | .NOT _ => false
  | .BIN ck _ _ =>
    if parent = .IMPLIES ∨ parent = .IFF then true
    else if prec ck < prec parent then true
    else if parent = .IMPLIES ∧ is_left = true ∧ prec ck = prec parent then true
    else false

/-- The canonical operator character stored in each AST node. -/
def op_char : BKind → Char
  | .AND => '∧'
  | .OR => '∨'
  | .IMPLIES => '→'
  | .IFF => '↔'
  | .XOR => '⊕'
  | .NAND => '↑'
  | .NOR => '↓'

/-- Whether a node is a `PROP` or `NOT` node (`type in ['PROP', 'NOT']`). -/
def is_atomic_or_not : Ast → Bool
  | .PROP _ => true
  | .NOT _ => true
  | .BIN _ _ _ => false

/-- `Formula.to_string` on a raw AST node, at the character level. -/
def to_chars : Ast → List Char
  | .PROP c => [c]
  | .NOT a =>
    '¬' :: (if is_atomic_or_not a then to_chars a else '(' :: (to_chars a ++ [')']))
  | .BIN k l r =>
    (if needs_parens l k true then '(' :: (to_chars l ++ [')']) else to_chars l)
      ++ ' ' :: op_char k :: ' ' ::
    (if needs_parens r k false then '(' :: (to_chars r ++ [')']) else to_chars r)

/-- `Formula.to_string` as a string. -/
def render (t : Ast) : String := String.mk (to_chars t)

/-- One rewriting pass of `re.sub(r'\s*<->\s*', ' ↔ ', s)` used by
`Formula.__str__`: leftmost-first replacement of `<->` together with the
surrounding whitespace. -/
def subIff_go : Nat → List Char → List Char
  | 0, cs => cs
  | _, [] => []
  | Nat.succ f, c :: rest =>
    match (c :: rest).dropWhile pyIsSpace with
    | '<' :: '-' :: '>' :: r2 => ' ' :: '↔' :: ' ' :: subIff_go f (r2.dropWhile pyIsSpace)
    | _ => c :: subIff_go f rest

/-- Entry point: every step of `subIff_go` consumes at least one
character, so `cs.length` fuel always reaches the end of the string. -/
def subIff (cs : List Char) : List Char := subIff_go cs.length cs

/-- `re.sub(r'\s*->\s*', ' → ', s)` from `Formula.__str__`. -/
def subArrow_go : Nat → List Char → List Char
  | 0, cs => cs
  | _, [] => []
  | Nat.succ f, c :: rest =>
    match (c :: rest).dropWhile pyIsSpace with
    | '-' :: '>' :: r2 => ' ' :: '→' :: ' ' :: subArrow_go f (r2.dropWhile pyIsSpace)
    | _ => c :: subArrow_go f rest

/-- Entry point, fueled like `subIff`. -/
def subArrow (cs : List Char) : List Char := subArrow_go cs.length cs

/-- The `replace` calls of `Formula.__str__`: `& → ∧`, `| → ∨`, `^ → ⊕`. -/
def subAscii (c : Char) : Char :=
  if c = '&' then '∧' else if c = '|' then '∨' else if c = '^' then '⊕' else c

/-- `re.sub(r'\s+', ' ', s)` from `Formula.__str__`. -/
def collapseWs_go : Nat → List Char → List Char
  | 0, cs => cs
  | _, [] => []
  | Nat.succ f, c :: rest =>
    if pyIsSpace c then ' ' :: collapseWs_go f (rest.dropWhile pyIsSpace)
    else c :: collapseWs_go f rest

/-- Entry point, fueled like `subIff`. -/
def collapseWs (cs : List Char) : List Char := collapseWs_go cs.length cs

/-- The canonicalisation pipeline of `Formula.__str__` on the stored
original string. -/
def canonC (cs : List Char) : List Char :=
  pyStrip (collapseWs ((subArrow (subIff cs)).map subAscii))

/-- `Formula`: the AST plus the stripped original string kept for
display (`original_string`). -/
structure Formula where
  original_string : String
  ast : Ast
deriving DecidableEq, Repr

/-- `Formula.__init__`: strip, reject empty input, parse. -/
def formula? (s : String) : Option Formula :=
  let t := pyStrip s.toList
  if t.isEmpty then none
  else
    match parse_chars t with
    | some a => some ⟨String.mk t, a⟩
    | none => none

/-- `Formula.__str__`: echo the canonicalised original string when
present, otherwise fall back to the pretty-printer. -/
def strF (f : Formula) : String :=
  if f.original_string = "" then render f.ast
  else String.mk (canonC f.original_string.toList)

/-- Raw collection order of `Formula._collect_atomic_propositions`. -/
def collect_props : Ast → List Char
  | .PROP c => [c]
  | .NOT a => collect_props a
  | .BIN _ l r => collect_props l ++ collect_props r

/-- Insert into a sorted list without duplicating (used to model the
Python `set` of atomic propositions in a canonical sorted form). -/
def insort (c : Char) : List Char → List Char
  | [] => [c]
  | d :: rest =>
    if c = d then d :: rest
    else if c < d then c :: d :: rest
    else d :: insort c rest

/-- The set of atomic propositions of an AST, as a sorted duplicate-free
list (`sorted(list(...))` over the Python set). -/
def sorted_props (t : Ast) : List Char := (collect_props t).foldr insort []

/-- Truth function of each binary connective
(`Formula._evaluate_node`). -/
def binop : BKind → Bool → Bool → Bool
  | .AND, a, b => a && b
  | .OR, a, b => a || b
  | .IMPLIES, a, b => !a || b
  | .IFF, a, b => a == b
  | .XOR, a, b => a != b
  | .NAND, a, b => !(a && b)
  | .NOR, a, b => !(a || b)

/-- `Formula._evaluate_node` over a truth-value dictionary (association
list).  The `PROP` lookup is guarded by the coverage check performed by
`evaluate`. -/
def eval_node (t : Ast) (tv : List (Char × Bool)) : Bool :=
  match t with
  | .PROP c => (tv.lookup c).getD false
  | .NOT a => !eval_node a tv
  | .BIN k l r => binop k (eval_node l tv) (eval_node r tv)

/-- `Formula.evaluate`: fails (`none`) when some referenced proposition
is missing from the assignment, otherwise evaluates the AST. -/
def evaluate (f : Formula) (tv : List (Char × Bool)) : Option Bool :=
  if (sorted_props f.ast).all (fun p => (tv.lookup p).isSome) then
    some (eval_node f.ast tv)
  else none

/-- Total semantics of an AST over a full truth assignment; used only in
theorem statements. -/
def eval_total (t : Ast) (σ : Char → Bool) : Bool :=
  match t with
  | .PROP c => σ c
  | .NOT a => !eval_total a σ
  | .BIN k l r => binop k (eval_total l σ) (eval_total r σ)

/-- `itertools.product([True, False], repeat=n)` in its exact order
(first coordinate varies slowest, `True` before `False`). -/
def bool_products : Nat → List (List Bool)
  | 0 => [[]]
  | Nat.succ n => ([true, false]).flatMap (fun b => (bool_products n).map (b :: ·))

/-- The result record of `TruthTable.generate_from_formulas`: column
headers and the evaluated row matrix (`None` cells for failed
evaluations). -/
structure TruthTable where
  headers : List String
  rows : List (List (Option Bool))
deriving DecidableEq, Repr

/-- `TruthTable._add_row`. -/
def table_row (props : List Char) (formulas : List Formula)
    (tv : List (Char × Bool)) : List (Option Bool) :=
  props.map (fun p => some ((tv.lookup p).getD true))
    ++ formulas.map (fun f => evaluate f tv)

/-- `TruthTable.generate_from_formulas`: union the propositions, sort
them, enumerate all `2^k` assignments, evaluate every formula per row. -/
def generate_from_formulas (formulas : List Formula) : Option TruthTable :=
  if formulas.isEmpty then none
  else
    let props := ((formulas.map (fun f => collect_props f.ast)).flatten).foldr insort []
    let headers := props.map (fun c => String.mk [c]) ++ formulas.map strF
    if props.isEmpty then some ⟨headers, [table_row props formulas []]⟩
    else
      some ⟨headers,
        (bool_products props.length).map
          (fun bs => table_row props formulas (props.zip bs))⟩

/-- `FormulaValidator.check_logical_equivalence`: brute-force comparison
over all assignments to the union of the propositions; an evaluation
error short-circuits to `False`. -/
def check_logical_equivalence (f1 f2 : Formula) : Bool :=
  let props := (collect_props f1.ast ++ collect_props f2.ast).foldr insort []
  if props.isEmpty then
    match evaluate f1 [], evaluate f2 [] with
    | some a, some b => a == b
    | _, _ => false
  else
    (bool_products props.length).all (fun bs =>
      match evaluate f1 (props.zip bs), evaluate f2 (props.zip bs) with
      | some a, some b => a == b
      | _, _ => false)

/-! ## The rule catalog (`inference_rules.py`) -/

/-- `InferenceRule._formulas_equal`: structural AST equality. -/
def formulas_equal : Ast → Ast → Bool
  | .PROP a, .PROP b => a == b
  | .NOT x, .NOT y => formulas_equal x y
  | .BIN k1 l1 r1, .BIN k2 l2 r2 =>
    k1 == k2 && formulas_equal l1 l2 && formulas_equal r1 r2
  | _, _ => false

/-- `node['type'] in [...]` for binary kinds. -/
def type_in (t : Ast) (ks : List BKind) : Bool :=
  match t with
  | .BIN k _ _ => ks.contains k
  | _ => false

/-- `ModusPonens.can_apply` for one orientation: `f2` is an implication
whose antecedent equals `f1`. -/
def mp_match (f1 f2 : Formula) : Bool :=
  match f2.ast with
  | .BIN .IMPLIES l _ => formulas_equal f1.ast l
  | _ => false

/-- `ModusPonens.can_apply`. -/
def can_apply_mp (fs : List Formula) : Bool :=
  match fs with
  | [f1, f2] => mp_match f1 f2 || mp_match f2 f1
  | _ => false

/-- `ModusPonens.apply`: return the consequent, printed and re-parsed. -/
def apply_mp (fs : List Formula) : Option Formula :=
  if can_apply_mp fs = false then none
  else
    match fs with
    | [f1, f2] =>
      match f2.ast with
      | .BIN .IMPLIES l r =>
        if formulas_equal f1.ast l then formula? (render r)
        else
          match f1.ast with
          | .BIN .IMPLIES l' r' =>
            if formulas_equal f2.ast l' then formula? (render r') else none
          | _ => none
      | _ =>
        match f1.ast with
        | .BIN .IMPLIES l' r' =>
          if formulas_equal f2.ast l' then formula? (render r') else none
        | _ => none
    | _ => none

/-- `ModusTollens.can_apply` for one orientation. -/
def mt_match (f1 f2 : Formula) : Bool :=
  match f1.ast, f2.ast with
  | .BIN .IMPLIES _ r, .NOT o => formulas_equal o r
  | _, _ => false

/-- `ModusTollens.can_apply`. -/
def can_apply_mt (fs : List Formula) : Bool :=
  match fs with
  | [f1, f2] => mt_match f1 f2 || mt_match f2 f1
  | _ => false

/-- `ModusTollens.apply`: build `¬P` (parenthesised when the antecedent
is not a bare proposition). -/
def apply_mt (fs : List Formula) : Option Formula :=
  if can_apply_mt fs = false then none
  else
    match fs with
    | [f1, f2] =>
      if mt_match f1 f2 then
        match f1.ast with
        | .BIN .IMPLIES l _ =>
          match l with
          | .PROP _ => formula? ("¬" ++ render l)
          | _ => formula? ("¬(" ++ render l ++ ")")
        | _ => none
      else if mt_match f2 f1 then
        match f2.ast with
        | .BIN .IMPLIES l _ =>
          match l with
          | .PROP _ => formula? ("¬" ++ render l)
          | _ => formula? ("¬(" ++ render l ++ ")")
        | _ => none
      else none
    | _ => none

/-- `HypotheticalSyllogism.can_apply`. -/
def can_apply_hs (fs : List Formula) : Bool :=
  match fs with
  | [f1, f2] =>
    match f1.ast, f2.ast with
    | .BIN .IMPLIES l1 r1, .BIN .IMPLIES l2 r2 =>
      formulas_equal r1 l2 || formulas_equal r2 l1
    | _, _ => false
  | _ => false

/-- `HypotheticalSyllogism.apply`. -/
def apply_hs (fs : List Formula) : Option Formula :=
  if can_apply_hs fs = false then none
  else
    match fs with
    | [f1, f2] =>
      match f1.ast, f2.ast with
      | .BIN .IMPLIES l1 r1, .BIN .IMPLIES l2 r2 =>
        if formulas_equal r1 l2 then
          formula? (render l1 ++ " → " ++ render r2)
        else
          formula? (render l2 ++ " → " ++ render r1)
      | _, _ => none
    | _ => none

/-- `DisjunctiveSyllogism.can_apply` for one orientation. -/
def ds_match (f1 f2 : Formula) : Bool :=
  match f1.ast, f2.ast with
  | .BIN .OR l r, .NOT o => formulas_equal o l || formulas_equal o r
  | _, _ => false

/-- `DisjunctiveSyllogism.can_apply`. -/
def can_apply_ds (fs : List Formula) : Bool :=
  match fs with
  | [f1, f2] => ds_match f1 f2 || ds_match f2 f1
  | _ => false

/-- `DisjunctiveSyllogism.apply` for one orientation. -/
def ds_build (f1 f2 : Formula) : Option Formula :=
  match f1.ast, f2.ast with
  | .BIN .OR l r, .NOT o =>
    if formulas_equal o l then formula? (render r)
    else if formulas_equal o r then formula? (render l)
    else none
  | _, _ => none

/-- `DisjunctiveSyllogism.apply`. -/
def apply_ds (fs : List Formula) : Option Formula :=
  if can_apply_ds fs = false then none
  else
    match fs with
    | [f1, f2] =>
      if ds_match f1 f2 then ds_build f1 f2
      else if ds_match f2 f1 then ds_build f2 f1
      else none
    | _ => none

/-- `ConjunctionIntroduction.can_apply`: any two formulas. -/
def can_apply_ci (fs : List Formula) : Bool := fs.length == 2

/-- `ConjunctionIntroduction.apply`: joins the display strings,
parenthesising `IMPLIES/IFF/OR/XOR`-rooted operands. -/
def apply_ci (fs : List Formula) : Option Formula :=
  if can_apply_ci fs = false then none
  else
    match fs with
    | [f1, f2] =>
      let s1 := if type_in f1.ast [.IMPLIES, .IFF, .OR, .XOR] then
          "(" ++ strF f1 ++ ")" else strF f1
      let s2 := if type_in f2.ast [.IMPLIES, .IFF, .OR, .XOR] then
          "(" ++ strF f2 ++ ")" else strF f2
      formula? (s1 ++ " ∧ " ++ s2)
    | _ => none

/-- `ConjunctionElimination.can_apply`. -/
def can_apply_ce (fs : List Formula) : Bool :=
  match fs with
  | [f] => type_in f.ast [.AND]
  | _ => false

/-- `ConjunctionElimination.apply` (parameter `which`). -/
def apply_ce (fs : List Formula) (which : String) : Option Formula :=
  if can_apply_ce fs = false then none
  else
    match fs with
    | [f] =>
      match f.ast with
      | .BIN .AND l r =>
        if which = "left" then formula? (render l) else formula? (render r)
      | _ => none
    | _ => none

/-- `Addition.can_apply`: any single formula. -/
def can_apply_add (fs : List Formula) : Bool := fs.length == 1

/-- `Addition.apply` with the externally supplied disjunct string. -/
def apply_add (fs : List Formula) (added : String) : Option Formula :=
  if can_apply_add fs = false then none
  else
    match fs with
    | [f1] =>
      let s1 := if type_in f1.ast [.IMPLIES, .IFF] then
          "(" ++ strF f1 ++ ")" else strF f1
      let added' :=
        match formula? added with
        | some g => if type_in g.ast [.IMPLIES, .IFF] then "(" ++ added ++ ")" else added
        | none => added
      formula? (s1 ++ " ∨ " ++ added')
    | _ => none

/-- `BiconditionalIntroduction.can_apply`: two converse implications. -/
def can_apply_bi (fs : List Formula) : Bool :=
  match fs with
  | [f1, f2] =>
    match f1.ast, f2.ast with
    | .BIN .IMPLIES l1 r1, .BIN .IMPLIES l2 r2 =>
      formulas_equal l1 r2 && formulas_equal r1 l2
    | _, _ => false
  | _ => false

/-- `BiconditionalIntroduction.apply`. -/
def apply_bi (fs : List Formula) : Option Formula :=
  if can_apply_bi fs = false then none
  else
    match fs with
    | [f1, _] =>
      match f1.ast with
      | .BIN .IMPLIES l r => formula? (render l ++ " ↔ " ++ render r)
      | _ => none
    | _ => none

/-- `BiconditionalElimination.can_apply`. -/
def can_apply_be (fs : List Formula) : Bool :=
  match fs with
  | [f] => type_in f.ast [.IFF]
  | _ => false

/-- `BiconditionalElimination.apply` (parameter `direction`). -/
def apply_be (fs : List Formula) (direction : String) : Option Formula :=
  if can_apply_be fs = false then none
  else
    match fs with
    | [f] =>
      match f.ast with
      | .BIN .IFF l r =>
        if direction = "forward" then formula? (render l ++ " → " ++ render r)
        else formula? (render r ++ " → " ++ render l)
      | _ => none
    | _ => none

/-- `DoubleNegation.can_apply`: always applicable to one formula. -/
def can_apply_dn (fs : List Formula) : Bool := fs.length == 1

/-- `DoubleNegation.apply` (parameter `mode`). -/
def apply_dn (fs : List Formula) (mode : String) : Option Formula :=
  if can_apply_dn fs = false then none
  else
    match fs with
    | [f] =>
      if mode = "eliminate" then
        match f.ast with
        | .NOT (.NOT inner) => formula? (render inner)
        | _ => none
      else
        match f.ast with
        | .PROP _ => formula? ("¬¬" ++ strF f)
        | _ => formula? ("¬¬(" ++ strF f ++ ")")
    | _ => none

/-- `DeMorgansLaw1.can_apply`: `¬(P∧Q)` or `¬P∨¬Q`. -/
def can_apply_dml1 (fs : List Formula) : Bool :=
  match fs with
  | [f] =>
    match f.ast with
    | .NOT (.BIN .AND _ _) => true
    | .BIN .OR (.NOT _) (.NOT _) => true
    | _ => false
  | _ => false

/-- `DeMorgansLaw1.apply`. -/
def apply_dml1 (fs : List Formula) : Option Formula :=
  if can_apply_dml1 fs = false then none
  else
    match fs with
    | [f] =>
      match f.ast with
      | .NOT (.BIN .AND l r) =>
        let ln := match l with
          | .PROP _ => "¬" ++ render l
          | _ => "¬(" ++ render l ++ ")"
        let rn := match r with
          | .PROP _ => "¬" ++ render r
          | _ => "¬(" ++ render r ++ ")"
        formula? (ln ++ " ∨ " ++ rn)
      | .BIN .OR (.NOT li) (.NOT ri) =>
        formula? ("¬(" ++ render li ++ " ∧ " ++ render ri ++ ")")
      | _ => none
    | _ => none

/-- `DeMorgansLaw2.can_apply`: `¬(P∨Q)` or `¬P∧¬Q`. -/
def can_apply_dml2 (fs : List Formula) : Bool :=
  match fs with
  | [f] =>
    match f.ast with
    | .NOT (.BIN .OR _ _) => true
    | .BIN .AND (.NOT _) (.NOT _) => true
    | _ => false
  | _ => false

/-- `DeMorgansLaw2.apply`. -/
def apply_dml2 (fs : List Formula) : Option Formula :=
  if can_apply_dml2 fs = false then none
  else
    match fs with
    | [f] =>
      match f.ast with
      | .NOT (.BIN .OR l r) =>
        let ln := match l with
          | .PROP _ => "¬" ++ render l
          | _ => "¬(" ++ render l ++ ")"
        let rn := match r with
          | .PROP _ => "¬" ++ render r
          | _ => "¬(" ++ render r ++ ")"
        formula? (ln ++ " ∧ " ++ rn)
      | .BIN .AND (.NOT li) (.NOT ri) =>
        formula? ("¬(" ++ render li ++ " ∨ " ++ render ri ++ ")")
      | _ => none
    | _ => none

/-- `Transposition.can_apply`: any implication. -/
def can_apply_trans (fs : List Formula) : Bool :=
  match fs with
  | [f] => type_in f.ast [.IMPLIES]
  | _ => false

/-- `Transposition.apply`. -/
def apply_trans (fs : List Formula) : Option Formula :=
  if can_apply_trans fs = false then none
  else
    match fs with
    | [f] =>
      match f.ast with
      | .BIN .IMPLIES l r =>
        match l, r with
        | .NOT lo, .NOT ro =>
          formula? (render ro ++ " → " ++ render lo)
        | _, _ =>
          let nc := match r with
            | .PROP _ => "¬" ++ render r
            | _ => "¬(" ++ render r ++ ")"
          let na := match l with
            | .PROP _ => "¬" ++ render l
            | _ => "¬(" ++ render l ++ ")"
          formula? (nc ++ " → " ++ na)
      | _ => none
    | _ => none

/-- `Implication.can_apply`: `P→Q` or `¬P∨Q`. -/
def can_apply_impl (fs : List Formula) : Bool :=
  match fs with
  | [f] =>
    match f.ast with
    | .BIN .IMPLIES _ _ => true
    | .BIN .OR (.NOT _) _ => true
    | _ => false
  | _ => false

/-- `Implication.apply`. -/
def apply_impl (fs : List Formula) : Option Formula :=
  if can_apply_impl fs = false then none
  else
    match fs with
    | [f] =>
      match f.ast with
      | .BIN .IMPLIES l r =>
        let np := match l with
          | .PROP _ => "¬" ++ render l
          | _ => "¬(" ++ render l ++ ")"
        formula? (np ++ " ∨ " ++ render r)
      | .BIN .OR (.NOT lo) r =>
        formula? (render lo ++ " → " ++ render r)
      | _ => none
    | _ => none

/-- `Exportation.can_apply`: `P→(Q→R)` or `(P∧Q)→R`. -/
def can_apply_exp (fs : List Formula) : Bool :=
  match fs with
  | [f] =>
    match f.ast with
    | .BIN .IMPLIES l r =>
      (match r with | .BIN .IMPLIES _ _ => true | _ => false)
        || (match l with | .BIN .AND _ _ => true | _ => false)
    | _ => false
  | _ => false

/-- `Exportation.apply`. -/
def apply_exp (fs : List Formula) : Option Formula :=
  if can_apply_exp fs = false then none
  else
    match fs with
    | [f] =>
      match f.ast with
      | .BIN .IMPLIES l (.BIN .IMPLIES q r) =>
        formula? ("(" ++ render l ++ " ∧ " ++ render q ++ ") → " ++ render r)
      | .BIN .IMPLIES (.BIN .AND p q) r =>
        formula? (render p ++ " → (" ++ render q ++ " → " ++ render r ++ ")")
      | _ => none
    | _ => none

/-- One complementary-literal test of `Resolution` for chosen sides of
the two disjunctions. -/
def res_compl (lit1 lit2 : Ast) : Bool :=
  (match lit1 with | .NOT o => formulas_equal o lit2 | _ => false)
    || (match lit2 with | .NOT o => formulas_equal o lit1 | _ => false)

/-- `Resolution.can_apply`. -/
def can_apply_res (fs : List Formula) : Bool :=
  match fs with
  | [f1, f2] =>
    match f1.ast, f2.ast with
    | .BIN .OR l1 r1, .BIN .OR l2 r2 =>
      res_compl l1 l2 || res_compl l1 r2 || res_compl r1 l2 || res_compl r1 r2
    | _, _ => false
  | _ => false

/-- `Resolution.apply`: join the remaining disjuncts of the first
complementary pair found in scan order. -/
def apply_res (fs : List Formula) : Option Formula :=
  if can_apply_res fs = false then none
  else
    match fs with
    | [f1, f2] =>
      match f1.ast, f2.ast with
      | .BIN .OR l1 r1, .BIN .OR l2 r2 =>
        if res_compl l1 l2 then formula? (render r1 ++ " ∨ " ++ render r2)
        else if res_compl l1 r2 then formula? (render r1 ++ " ∨ " ++ render l2)
        else if res_compl r1 l2 then formula? (render l1 ++ " ∨ " ++ render r2)
        else if res_compl r1 r2 then formula? (render l1 ++ " ∨ " ++ render l2)
        else none
      | _, _ => none
    | _ => none

/-- `Absorption.can_apply`: any implication. -/
def can_apply_abs (fs : List Formula) : Bool :=
  match fs with
  | [f] => type_in f.ast [.IMPLIES]
  | _ => false

/-- `Absorption.apply`.  Note the hole: when the consequent is a
conjunction with neither conjunct equal to the antecedent, the source
falls through to `return None`. -/
def apply_abs (fs : List Formula) : Option Formula :=
  if can_apply_abs fs = false then none
  else
    match fs with
    | [f] =>
      match f.ast with
      | .BIN .IMPLIES l r =>
        match r with
        | .BIN .AND c1 c2 =>
          if formulas_equal c1 l then
            formula? (render l ++ " → " ++ render c2)
          else if formulas_equal c2 l then
            formula? (render l ++ " → " ++ render c1)
          else none
        | _ =>
          formula? (render l ++ " → (" ++ render l ++ " ∧ " ++ render r ++ ")")
      | _ => none
    | _ => none

/-- The classification pass of `ConstructiveDilemma`: the implications
in scan order and the last disjunction seen. -/
def cd_classify (fs : List Formula) : List Formula × Option Formula :=
  fs.foldl
    (fun acc f =>
      match f.ast with
      | .BIN .IMPLIES _ _ => (acc.1 ++ [f], acc.2)
      | .BIN .OR _ _ => (acc.1, some f)
      | _ => acc)
    ([], none)

/-- `ConstructiveDilemma.can_apply`. -/
def can_apply_cd (fs : List Formula) : Bool :=
  if fs.length == 3 then
    match cd_classify fs with
    | ([i1, i2], some d) =>
      match i1.ast, i2.ast, d.ast with
      | .BIN .IMPLIES a1 _, .BIN .IMPLIES a2 _, .BIN .OR dl dr =>
        (formulas_equal dl a1 && formulas_equal dr a2)
          || (formulas_equal dl a2 && formulas_equal dr a1)
      | _, _, _ => false
    | _ => false
  else false

/-- `ConstructiveDilemma.apply`. -/
def apply_cd (fs : List Formula) : Option Formula :=
  if can_apply_cd fs = false then none
  else
    match cd_classify fs with
    | ([i1, i2], some d) =>
      match i1.ast, i2.ast, d.ast with
      | .BIN .IMPLIES a1 q1, .BIN .IMPLIES a2 q2, .BIN .OR dl dr =>
        if formulas_equal dl a1 && formulas_equal dr a2 then
          formula? (render q1 ++ " ∨ " ++ render q2)
        else
          formula? (render q2 ++ " ∨ " ++ render q1)
      | _, _, _ => none
    | _ => none

/-- The 19 rules of the catalog. -/
inductive RuleId where
| MP | MT | HS | DS | CI | CE | ADD | SIMP | BI | BE | DN
| DML1 | DML2 | TRANS | IMPL | EXP | RES | ABS | CD
deriving DecidableEq, Repr, BEq

/-- `InferenceRule.name` for each rule. -/
def rule_name : RuleId → String
  | .MP => "Modus Ponens"
  | .MT => "Modus Tollens"
  | .HS => "Hypothetical Syllogism"
  | .DS => "Disjunctive Syllogism"
  | .CI => "Conjunction Introduction"
  | .CE => "Conjunction Elimination"
  | .ADD => "Addition"
  | .SIMP => "Simplification"
  | .BI => "Biconditional Introduction"
  | .BE => "Biconditional Elimination"
  | .DN => "Double Negation"
  | .DML1 => "De Morgan's Law 1"
  | .DML2 => "De Morgan's Law 2"
  | .TRANS => "Transposition"
  | .IMPL => "Implication"
  | .EXP => "Exportation"
  | .RES => "Resolution"
  | .ABS => "Absorption"
  | .CD => "Constructive Dilemma"

/-- `InferenceRule.abbreviation` for each rule. -/
def rule_abbrev : RuleId → String
  | .MP => "MP"
  | .MT => "MT"
  | .HS => "HS"
  | .DS => "DS"
  | .CI => "CI"
  | .CE => "CE"
  | .ADD => "ADD"
  | .SIMP => "SIMP"
  | .BI => "BI"
  | .BE => "BE"
  | .DN => "DN"
  | .DML1 => "DML1"
  | .DML2 => "DML2"
  | .TRANS => "TRANS"
  | .IMPL => "IMPL"
  | .EXP => "EXP"
  | .RES => "RES"
  | .ABS => "ABS"
  | .CD => "CD"

/-- `get_all_rules`: the catalog in its registration order. -/
def get_all_rules : List RuleId :=
  [.MP, .MT, .HS, .DS, .CI, .CE, .ADD, .SIMP, .BI, .BE, .DN,
   .DML1, .DML2, .TRANS, .IMPL, .EXP, .RES, .ABS, .CD]

/-- Python `str.lower` on the ASCII letters the rule names contain. -/
def py_lower (c : Char) : Char :=
  if 'A' ≤ c ∧ c ≤ 'Z' then Char.ofNat (c.toNat + 32) else c

/-- Python `str.upper` on ASCII letters. -/
def py_upper (c : Char) : Char :=
  if 'a' ≤ c ∧ c ≤ 'z' then Char.ofNat (c.toNat - 32) else c

/-- `get_rule_by_name`: case-insensitive lookup by name or
abbreviation. -/
def get_rule_by_name (n : String) : Option RuleId :=
  get_all_rules.find? (fun r =>
    (rule_name r).toList.map py_lower == n.toList.map py_lower
      || (rule_abbrev r).toList.map py_lower == n.toList.map py_lower)

/-- `get_rule_by_abbreviation`. -/
def get_rule_by_abbreviation (a : String) : Option RuleId :=
  get_all_rules.find? (fun r =>
    (rule_abbrev r).toList.map py_upper == a.toList.map py_upper)

/-- Dispatch of `can_apply`. -/
def can_apply_rule : RuleId → List Formula → Bool
  | .MP => can_apply_mp
  | .MT => can_apply_mt
  | .HS => can_apply_hs
  | .DS => can_apply_ds
  | .CI => can_apply_ci
  | .CE => can_apply_ce
  | .ADD => can_apply_add
  | .SIMP => can_apply_ce
  | .BI => can_apply_bi
  | .BE => can_apply_be
  | .DN => can_apply_dn
  | .DML1 => can_apply_dml1
  | .DML2 => can_apply_dml2
  | .TRANS => can_apply_trans
  | .IMPL => can_apply_impl
  | .EXP => can_apply_exp
  | .RES => can_apply_res
  | .ABS => can_apply_abs
  | .CD => can_apply_cd

/-- The keyword arguments threaded through `ProofSystem.apply_rule`,
with the defaults the source supplies via `kwargs.get`. -/
structure Kw where
  added_formula : String := "B"
  which : String := "left"
  direction : String := "forward"
  mode : String := "eliminate"
deriving Repr

/-- The parameter dispatch inside `ProofSystem.apply_rule`. -/
def rule_apply (r : RuleId) (fs : List Formula) (kw : Kw) : Option Formula :=
  match r with
  | .ADD => apply_add fs kw.added_formula
  | .CE => apply_ce fs kw.which
  | .SIMP => apply_ce fs kw.which
  | .BE => apply_be fs kw.direction
  | .DN => apply_dn fs kw.mode
  | .MP => apply_mp fs
  | .MT => apply_mt fs
  | .HS => apply_hs fs
  | .DS => apply_ds fs
  | .CI => apply_ci fs
  | .BI => apply_bi fs
  | .DML1 => apply_dml1 fs
  | .DML2 => apply_dml2 fs
  | .TRANS => apply_trans fs
  | .IMPL => apply_impl fs
  | .EXP => apply_exp fs
  | .RES => apply_res fs
  | .ABS => apply_abs fs
  | .CD => apply_cd fs

/-! ## Proof state (`proof_system.py`) -/

/-- `ProofStep`. -/
structure ProofStep where
  index : Nat
  formula : Formula
  justification : String
  dependencies : List Nat
deriving DecidableEq, Repr

/-- The mutable state of a `ProofSystem` instance. -/
structure ProofSystem where
  premises : List Formula
  proof_steps : List ProofStep
  conclusion : Option Formula
  step_index : Nat
  is_complete : Bool
deriving DecidableEq, Repr

/-- `ProofSystem.__init__` / `clear`. -/
def empty_proof : ProofSystem := ⟨[], [], none, 1, false⟩

/-- `ProofSystem._check_if_complete`: recompute the flag from the
display-string comparison; leaves the flag untouched when no conclusion
is set. -/
def check_flag (steps : List ProofStep) (conclusion : Option Formula)
    (old : Bool) : Bool :=
  match conclusion with
  | none => old
  | some c => steps.any (fun st => strF st.formula == strF c)

/-- `ProofSystem.add_premise`. -/
def add_premise (ps : ProofSystem) (f : Formula) :
    (Bool × String) × ProofSystem :=
  if ps.premises.any (fun p => strF p == strF f) then
    ((false, "Premise already exists"), ps)
  else
    ((true, "Premise added successfully"),
      { ps with
        premises := ps.premises ++ [f]
        proof_steps := ps.proof_steps ++ [⟨ps.step_index, f, "Premise", []⟩]
        step_index := ps.step_index + 1 })

/-- `ProofSystem.set_conclusion`. -/
def set_conclusion (ps : ProofSystem) (f : Formula) :
    (Bool × String) × ProofSystem :=
  let ps' : ProofSystem :=
    { ps with conclusion := some f, is_complete := false }
  ((true, "Conclusion set successfully"),
    { ps' with is_complete := check_flag ps'.proof_steps ps'.conclusion ps'.is_complete })

/-- The index-resolution loop of `ProofSystem.apply_rule`: first missing
index wins. -/
def resolve_steps (steps : List ProofStep) : List Nat → Except Nat (List Formula)
  | [] => .ok []
  | i :: rest =>
    match steps.find? (fun s => s.index == i) with
    | none => .error i
    | some s =>
      match resolve_steps steps rest with
      | .error j => .error j
      | .ok fs => .ok (s.formula :: fs)

/-- `ProofSystem.apply_rule`. -/
def apply_rule (ps : ProofSystem) (rn : String) (idxs : List Nat) (kw : Kw) :
    (Bool × String × Option ProofStep) × ProofSystem :=
  match (get_rule_by_name rn).orElse (fun _ => get_rule_by_abbreviation rn) with
  | none => ((false, "Unknown rule: " ++ rn, none), ps)
  | some r =>
    match resolve_steps ps.proof_steps idxs with
    | .error i => ((false, "Step " ++ toString i ++ " not found", none), ps)
    | .ok fs =>
      if can_apply_rule r fs = false then
        ((false, "Rule " ++ rule_name r ++ " cannot be applied to selected steps", none), ps)
      else
        match rule_apply r fs kw with
        | none => ((false, "Rule application failed", none), ps)
        | some nf =>
          if ps.proof_steps.any (fun st => strF st.formula == strF nf) then
            ((false, "This formula already exists in the proof", none), ps)
          else
            let stp : ProofStep := ⟨ps.step_index, nf, rule_name r, idxs⟩
            let steps' := ps.proof_steps ++ [stp]
            ((true, "Applied " ++ rule_name r ++ " successfully", some stp),
              { ps with
                proof_steps := steps'
                step_index := ps.step_index + 1
                is_complete := check_flag steps' ps.conclusion ps.is_complete })

/-! ## Automatic proof search (`ProofSystem.auto_prove`)

The Python `while` loop with nested `for` loops, early `return` on
completion and `break` statements is expressed with explicit recursion;
`Except.error` carries the early `return True, "Proof complete! …"`. -/

/-- Result alternative of one traversal piece: an early successful
return (`error`) or the updated state with the running count of new
steps (`ok`). -/
abbrev SweepRes := Except (ProofSystem × String) (ProofSystem × Nat)

/-- `for indices in [...]: … if success: … break` — try index tuples in
order, stopping at the first success. -/
def try_orders (ps : ProofSystem) (rn : String) (cnt : Nat) :
    List (List Nat) → SweepRes
  | [] => .ok (ps, cnt)
  | idxs :: rest =>
    match apply_rule ps rn idxs {} with
    | ((true, _, _), ps') =>
      if ps'.is_complete then .error (ps', "Proof complete! Used " ++ rn)
      else .ok (ps', cnt + 1)
    | ((false, _, _), ps') => try_orders ps' rn cnt rest

/-- Try a list of keyword-argument settings on one step (no `break`). -/
def try_params (ps : ProofSystem) (rn : String) (idx : Nat) (cnt : Nat) :
    List Kw → SweepRes
  | [] => .ok (ps, cnt)
  | kw :: rest =>
    match apply_rule ps rn [idx] kw with
    | ((true, _, _), ps') =>
      if ps'.is_complete then .error (ps', "Proof complete! Used " ++ rn)
      else try_params ps' rn idx (cnt + 1) rest
    | ((false, _, _), ps') => try_params ps' rn idx cnt rest

/-- Inner loop of a binary rule: `for step2 in self.proof_steps[i+1:]`
over the slice copied at inner-loop entry. -/
def bin_inner (rn : String) (s1 : ProofStep) :
    ProofSystem → Nat → List ProofStep → SweepRes
  | ps, cnt, [] => .ok (ps, cnt)
  | ps, cnt, s2 :: rest =>
    match try_orders ps rn cnt [[s1.index, s2.index], [s2.index, s1.index]] with
    | .error e => .error e
    | .ok (ps', c') => bin_inner rn s1 ps' c' rest

/-- Outer loop of a binary rule over the snapshot taken at rule start,
re-slicing the live step list at each outer iteration. -/
def bin_outer (rn : String) :
    ProofSystem → Nat → Nat → List ProofStep → SweepRes
  | ps, cnt, _, [] => .ok (ps, cnt)
  | ps, cnt, i, s1 :: srest =>
    match bin_inner rn s1 ps cnt (ps.proof_steps.drop (i + 1)) with
    | .error e => .error e
    | .ok (ps', c') => bin_outer rn ps' c' (i + 1) srest

/-- Sweep of a binary rule (`MP MT HS DS CI BI RES`). -/
def binary_sweep (ps : ProofSystem) (rn : String) (cnt : Nat) : SweepRes :=
  bin_outer rn ps cnt 0 ps.proof_steps

/-- Sweep of a unary-style rule over the snapshot of steps, trying the
given keyword settings on each step. -/
def unary_sweep (rn : String) (kws : List Kw) :
    ProofSystem → Nat → List ProofStep → SweepRes
  | ps, cnt, [] => .ok (ps, cnt)
  | ps, cnt, s :: rest =>
    match try_params ps rn s.index cnt kws with
    | .error e => .error e
    | .ok (ps', c') => unary_sweep rn kws ps' c' rest

/-- Innermost loop of Constructive Dilemma: `for step3 in
self.proof_steps[j+1:]` with three orderings tried per triple. -/
def cd_inner (s1 s2 : ProofStep) :
    ProofSystem → Nat → List ProofStep → SweepRes
  | ps, cnt, [] => .ok (ps, cnt)
  | ps, cnt, s3 :: rest =>
    match try_orders ps (rule_name .CD) cnt
        [[s1.index, s2.index, s3.index],
         [s1.index, s3.index, s2.index],
         [s2.index, s3.index, s1.index]] with
    | .error e => .error e
    | .ok (ps', c') => cd_inner s1 s2 ps' c' rest

/-- Middle loop of Constructive Dilemma (`enumerate(…, i+1)` over the
live slice). -/
def cd_mid (s1 : ProofStep) :
    ProofSystem → Nat → Nat → List ProofStep → SweepRes
  | ps, cnt, _, [] => .ok (ps, cnt)
  | ps, cnt, j, s2 :: rest =>
    match cd_inner s1 s2 ps cnt (ps.proof_steps.drop (j + 1)) with
    | .error e => .error e
    | .ok (ps', c') => cd_mid s1 ps' c' (j + 1) rest

/-- Outer loop of Constructive Dilemma. -/
def cd_outer : ProofSystem → Nat → Nat → List ProofStep → SweepRes
  | ps, cnt, _, [] => .ok (ps, cnt)
  | ps, cnt, i, s1 :: srest =>
    match cd_mid s1 ps cnt (i + 1) (ps.proof_steps.drop (i + 1)) with
    | .error e => .error e
    | .ok (ps', c') => cd_outer ps' c' (i + 1) srest

/-- The traversal `auto_prove` performs for one catalog rule. -/
def rule_sweep (ps : ProofSystem) (r : RuleId) (cnt : Nat) : SweepRes :=
  match r with
  | .ADD => .ok (ps, cnt)
  | .DN => unary_sweep (rule_name .DN) [{ mode := "eliminate" }] ps cnt ps.proof_steps
  | .MP | .MT | .HS | .DS | .CI | .BI | .RES => binary_sweep ps (rule_name r) cnt
  | .CD => cd_outer ps cnt 0 ps.proof_steps
  | .CE => unary_sweep (rule_name .CE) [{ which := "left" }, { which := "right" }] ps cnt ps.proof_steps
  | .SIMP => unary_sweep (rule_name .SIMP) [{ which := "left" }, { which := "right" }] ps cnt ps.proof_steps
  | .BE => unary_sweep (rule_name .BE) [{ direction := "forward" }, { direction := "backward" }] ps cnt ps.proof_steps
  | _ => unary_sweep (rule_name r) [{}] ps cnt ps.proof_steps

/-- One round of `auto_prove`: every rule of the catalog in order. -/
def round_go : List RuleId → ProofSystem → Nat → SweepRes
  | [], ps, cnt => .ok (ps, cnt)
  | r :: rest, ps, cnt =>
    match rule_sweep ps r cnt with
    | .error e => .error e
    | .ok (ps', c') => round_go rest ps' c'

/-- One full round over the 19-rule catalog. -/
def round_rules (ps : ProofSystem) : SweepRes := round_go get_all_rules ps 0

/-- The code after the `while` loop of `auto_prove`. -/
def auto_finish (ps : ProofSystem) : (Bool × String) × ProofSystem :=
  if ps.is_complete then ((true, "Proof complete!"), ps)
  else ((false, "Could not complete proof within the step limit."), ps)

/-- The `while steps_added < max_steps and not self.is_complete` loop.
Each continuing round adds at least one step, so `max_steps + 1` units
of fuel always reach the natural exit; the fuel-exhausted branch
coincides with the loop exit. -/
def auto_loop (m : Nat) : Nat → ProofSystem → Nat → (Bool × String) × ProofSystem
  | 0, ps, _ => auto_finish ps
  | Nat.succ fuel, ps, added =>
    if added < m ∧ ps.is_complete = false then
      match round_rules ps with
      | .error (ps', msg) => ((true, msg), ps')
      | .ok (ps', k) =>
        if k = 0 then auto_finish ps'
        else auto_loop m fuel ps' (added + k)
    else auto_finish ps

/-- `ProofSystem.auto_prove`. -/
def auto_prove (ps : ProofSystem) (max_steps : Nat) :
    (Bool × String) × ProofSystem :=
  match ps.conclusion with
  | none => ((false, "No conclusion set"), ps)
  | some _ =>
    if ps.premises.isEmpty then ((false, "No premises provided"), ps)
    else if ps.is_complete then ((true, "Proof already complete"), ps)
    else auto_loop max_steps (max_steps + 1) ps 0

/-! ## Specification-side definitions for the round-trip analysis -/

/-- `Formula.to_string` at the token level: the token sequence obtained
by tokenizing the rendered string. -/
def ptTok : Ast → List Tok
  | .PROP c => [.PROP c]
  | .NOT a =>
    .NOT :: (if is_atomic_or_not a then ptTok a
             else .LPAREN :: (ptTok a ++ [.RPAREN]))
  | .BIN k l r =>
    (if needs_parens l k true then .LPAREN :: (ptTok l ++ [.RPAREN]) else ptTok l)
      ++ op_tok k ::
    (if needs_parens r k false then .LPAREN :: (ptTok r ++ [.RPAREN]) else ptTok r)
where
  /-- The token of a binary operator. -/
  op_tok : BKind → Tok
    | .AND => .AND
    | .OR => .OR
    | .IMPLIES => .IMPLIES
    | .IFF => .IFF
    | .XOR => .XOR
    | .NAND => .NAND
    | .NOR => .NOR

/-- The parse level a node's top operator binds at (`PROP`/`NOT` bind
tightest). -/
def lvl_top : Ast → Nat
  | .PROP _ => 6
  | .NOT _ => 6
  | .BIN k _ _ => prec k

/-- The class of ASTs whose printed form re-parses to the same tree: no
`OR/NOR/XOR/AND/NAND` node may have a right operand whose top operator
has the same precedence (the printer omits the parentheses there and
the left-associative parser reassociates the chain). -/
def good : Ast → Bool
  | .PROP _ => true
  | .NOT a => good a
  | .BIN k l r =>
    good l && good r && (decide (prec k < 3) || decide (lvl_top r ≠ prec k))

/-- The parse level a pending token would continue at (`0` for tokens
that continue nothing). -/
def cont_lvl : List Tok → Nat
  | Tok.IFF :: _ => 1
  | Tok.IMPLIES :: _ => 2
  | Tok.OR :: _ => 3
  | Tok.NOR :: _ => 3
  | Tok.XOR :: _ => 4
  | Tok.AND :: _ => 5
  | Tok.NAND :: _ => 5
  | _ => 0

/-- The single character a token renders and re-tokenizes from. -/
def tok_char : Tok → Char
  | .PROP c => c
  | .AND => '∧'
  | .OR => '∨'
  | .NOT => '¬'
  | .IMPLIES => '→'
  | .IFF => '↔'
  | .XOR => '⊕'
  | .NAND => '↑'
  | .NOR => '↓'
  | .LPAREN => '('
  | .RPAREN => ')'

/-- Map a rendered character back to its token (`none` for spaces). -/
def char_tok (c : Char) : Option Tok :=
  if pyIsSpace c then none
  else if c.isUpper then some (.PROP c)
  else if c = '∧' then some .AND
  else if c = '∨' then some .OR
  else if c = '¬' then some .NOT
  else if c = '→' then some .IMPLIES
  else if c = '↔' then some .IFF
  else if c = '⊕' then some .XOR
  else if c = '↑' then some .NAND
  else if c = '↓' then some .NOR
  else if c = '(' then some .LPAREN
  else if c = ')' then some .RPAREN
  else none

/-- The operand form the printer emits for a child in a level-`k`
context: parenthesised exactly when the child binds looser than `k`
(`_needs_parentheses` reduces to this comparison; `k = 6` captures the
always-parenthesise rule under `IMPLIES`/`IFF`). -/
def pw (k : Nat) (u : Ast) : List Tok :=
  if lvl_top u < k then .LPAREN :: (ptTok u ++ [.RPAREN]) else ptTok u

/-- The printed token run of the operator/operand pairs of a chain at
level `k`. -/
def chain_toks (k : Nat) (ops : List (BKind × Ast)) : List Tok :=
  (ops.map (fun p => ptTok.op_tok p.1 :: pw k p.2)).flatten

/-- The maximal left spine of same-level binary nodes: the first operand
and the operator/operand pairs the printer lays out flat and the parser
folds back left-associatively. -/
def spine_at (k : Nat) : Ast → Ast × List (BKind × Ast)
  | .BIN kd l r =>
    if prec kd = k then
      ((spine_at k l).1, (spine_at k l).2 ++ [(kd, r)])
    else (.BIN kd l r, [])
  | t => (t, [])

/-- The facts the round-trip induction carries for one AST: the printed
form of `t` parses back to exactly `t` at every precedence level, both
bare and wrapped in parentheses, given enough fuel and a continuation
that does not extend the parse. -/
structure ParserFacts (t : Ast) : Prop where
  m6 : lvl_top t = 6 → ∀ rest f, 8 * (ptTok t).length + 3 ≤ f →
    parse_not f (ptTok t ++ rest) = some (t, rest)
  m5 : 5 ≤ lvl_top t → ∀ rest f, cont_lvl rest < 5 →
    8 * (ptTok t).length + 4 ≤ f →
    parse_and f (ptTok t ++ rest) = some (t, rest)
  m4 : 4 ≤ lvl_top t → ∀ rest f, cont_lvl rest < 4 →
    8 * (ptTok t).length + 5 ≤ f →
    parse_xor f (ptTok t ++ rest) = some (t, rest)
  m3 : 3 ≤ lvl_top t → ∀ rest f, cont_lvl rest < 3 →
    8 * (ptTok t).length + 6 ≤ f →
    parse_or f (ptTok t ++ rest) = some (t, rest)
  m2 : 2 ≤ lvl_top t → ∀ rest f, cont_lvl rest < 2 →
    8 * (ptTok t).length + 7 ≤ f →
    parse_implies f (ptTok t ++ rest) = some (t, rest)
  m1 : ∀ rest f, cont_lvl rest = 0 → 8 * (ptTok t).length + 8 ≤ f →
    parse_iff f (ptTok t ++ rest) = some (t, rest)
  wr7 : ∀ rest f, 8 * (ptTok t).length + 9 ≤ f →
    parse_atom f (.LPAREN :: (ptTok t ++ .RPAREN :: rest)) = some (t, rest)
  wr6 : ∀ rest f, 8 * (ptTok t).length + 10 ≤ f →
    parse_not f (.LPAREN :: (ptTok t ++ .RPAREN :: rest)) = some (t, rest)
  wr5 : ∀ rest f, cont_lvl rest ≠ 5 → 8 * (ptTok t).length + 11 ≤ f →
    parse_and f (.LPAREN :: (ptTok t ++ .RPAREN :: rest)) = some (t, rest)
  wr4 : ∀ rest f, cont_lvl rest < 4 → 8 * (ptTok t).length + 12 ≤ f →
    parse_xor f (.LPAREN :: (ptTok t ++ .RPAREN :: rest)) = some (t, rest)
  wr3 : ∀ rest f, cont_lvl rest < 3 → 8 * (ptTok t).length + 13 ≤ f →
    parse_or f (.LPAREN :: (ptTok t ++ .RPAREN :: rest)) = some (t, rest)
  wr2 : ∀ rest f, cont_lvl rest < 2 → 8 * (ptTok t).length + 14 ≤ f →
    parse_implies f (.LPAREN :: (ptTok t ++ .RPAREN :: rest)) = some (t, rest)
  wat5 : lvl_top t ≠ 5 → ∀ rest f, 8 * (pw 5 t).length + 3 ≤ f →
    parse_not f (pw 5 t ++ rest) = some (t, rest)
  wat4 : lvl_top t ≠ 4 → ∀ rest f, cont_lvl rest < 5 →
    8 * (pw 4 t).length + 4 ≤ f →
    parse_and f (pw 4 t ++ rest) = some (t, rest)
  wat3 : lvl_top t ≠ 3 → ∀ rest f, cont_lvl rest < 4 →
    8 * (pw 3 t).length + 5 ≤ f →
    parse_xor f (pw 3 t ++ rest) = some (t, rest)
  wat2or : ∀ rest f, cont_lvl rest < 3 → 8 * (pw 6 t).length + 6 ≤ f →
    parse_or f (pw 6 t ++ rest) = some (t, rest)
  wat2 : ∀ rest f, cont_lvl rest < 2 → 8 * (pw 6 t).length + 7 ≤ f →
    parse_implies f (pw 6 t ++ rest) = some (t, rest)

/-- Characters the pretty-printer can emit: they tokenize one-for-one
with no lookahead interaction. -/
def simple_char (c : Char) : Bool :=
  c = ' ' || c.isUpper || c = '∧' || c = '∨' || c = '¬' || c = '→'
    || c = '↔' || c = '⊕' || c = '↑' || c = '↓' || c = '(' || c = ')'

/-- Every atom of the AST carries an uppercase letter — an invariant of
every AST the parser builds (`_tokenize` only emits `PROP` tokens for
`isupper()` characters). -/
def props_upper : Ast → Bool
  | .PROP c => c.isUpper
  | .NOT a => props_upper a
  | .BIN _ l r => props_upper l && props_upper r

/-- The spec's auto-prove failure scenario: premise `A`, conclusion `B`
(used as concrete input for witnesses). -/
def scenario_fail_state : ProofSystem :=
  (set_conclusion (add_premise empty_proof ⟨"A", .PROP 'A'⟩).2 ⟨"B", .PROP 'B'⟩).2

/-- Invariant of every traversal piece of `auto_prove`, relative to the
entry state `ps` and entry count `cnt`: an `ok` result only appends
steps (one per counted success), preserves premises/conclusion, equals
the entry state when nothing was added, and keeps the completion flag
false; an early return (`error`) carries a completed state. -/
def SweepInv (ps : ProofSystem) (cnt : Nat) : SweepRes → Prop
  | .ok (ps', c') =>
      ps'.premises = ps.premises ∧ ps'.conclusion = ps.conclusion
      ∧ (∃ ext, ps'.proof_steps = ps.proof_steps ++ ext)
      ∧ cnt ≤ c'
      ∧ ps'.proof_steps.length + cnt = ps.proof_steps.length + c'
      ∧ (c' = cnt → ps' = ps)
      ∧ (ps.is_complete = false → ps'.is_complete = false)
  | .error e =>
      e.1.is_complete = true ∧ e.1.premises = ps.premises
      ∧ e.1.conclusion = ps.conclusion
      ∧ (∃ ext, e.1.proof_steps = ps.proof_steps ++ ext)

/-! # Theorems -/

theorem mem_insort {a c : Char} {l : List Char} :
    a ∈ insort c l ↔ a = c ∨ a ∈ l := by
  induction l with
  | nil => simp [insort]
  | cons d rest ih =>
    unfold insort
    split_ifs with h1 h2
    · subst h1; simp
    · simp
    · simp only [List.mem_cons, ih]
      tauto

theorem mem_foldr_insort {a : Char} {l : List Char} :
    a ∈ l.foldr insort [] ↔ a ∈ l := by
  induction l with
  | nil => simp
  | cons c rest ih => simp [List.foldr_cons, mem_insort, ih]

theorem insort_ne_nil (c : Char) (l : List Char) : insort c l ≠ [] := by
  cases l with
  | nil => simp [insort]
  | cons d rest =>
    unfold insort
    split_ifs <;> simp

theorem foldr_insort_eq_nil {l : List Char} :
    l.foldr insort [] = [] ↔ l = [] := by
  cases l with
  | nil => simp
  | cons c rest =>
    simp only [List.foldr_cons]
    exact ⟨fun h => absurd h (insort_ne_nil c _), fun h => by simp at h⟩

/-- `_evaluate_node` only reads the dictionary at referenced
propositions. -/
theorem eval_node_congr (t : Ast) (tv1 tv2 : List (Char × Bool))
    (h : ∀ c ∈ collect_props t, tv1.lookup c = tv2.lookup c) :
    eval_node t tv1 = eval_node t tv2 := by
  induction t with
  | PROP c => rw [eval_node, eval_node, h c (by simp [collect_props])]
  | NOT a ih => rw [eval_node, eval_node, ih (fun c hc => h c hc)]
  | BIN k l r ihl ihr =>
    rw [eval_node, eval_node,
      ihl (fun c hc => h c (by simp [collect_props, hc])),
      ihr (fun c hc => h c (by simp [collect_props, hc]))]

/-- `_evaluate_node` agrees with the total semantics when the dictionary
stores the assignment's values for all referenced propositions. -/
theorem eval_node_total (t : Ast) (tv : List (Char × Bool)) (σ : Char → Bool)
    (h : ∀ c ∈ collect_props t, tv.lookup c = some (σ c)) :
    eval_node t tv = eval_total t σ := by
  induction t with
  | PROP c =>
    rw [eval_node, eval_total, h c (by simp [collect_props])]
    rfl
  | NOT a ih => rw [eval_node, eval_total, ih (fun c hc => h c hc)]
  | BIN k l r ihl ihr =>
    rw [eval_node, eval_total,
      ihl (fun c hc => h c (by simp [collect_props, hc])),
      ihr (fun c hc => h c (by simp [collect_props, hc]))]

theorem bool_products_length {n : Nat} {bs : List Bool}
    (h : bs ∈ bool_products n) : bs.length = n := by
  induction n generalizing bs with
  | zero => simp [bool_products] at h; simp [h]
  | succ m ih =>
    simp only [bool_products, List.mem_flatMap, List.mem_map] at h
    obtain ⟨b, _, bs', hbs', rfl⟩ := h
    simp [ih hbs']

theorem map_mem_bool_products (L : List Char) (σ : Char → Bool) :
    L.map σ ∈ bool_products L.length := by
  induction L with
  | nil => simp [bool_products]
  | cons c rest ih =>
    simp only [List.map_cons, List.length_cons, bool_products,
      List.mem_flatMap, List.mem_map]
    exact ⟨σ c, by cases σ c <;> simp, rest.map σ, ih, rfl⟩

theorem lookup_zip_map (L : List Char) (σ : Char → Bool) (c : Char)
    (h : c ∈ L) : ((L.zip (L.map σ)).lookup c) = some (σ c) := by
  induction L with
  | nil => simp at h
  | cons d rest ih =>
    simp only [List.map_cons, List.zip_cons_cons, List.lookup]
    by_cases hcd : c = d
    · subst hcd; simp
    · have : (c == d) = false := by simp [hcd]
      rw [this]
      exact ih (by simpa [hcd] using h)

theorem lookup_zip_isSome (L : List Char) (bs : List Bool) (c : Char)
    (h : c ∈ L) (hl : bs.length = L.length) :
    ((L.zip bs).lookup c).isSome = true := by
  induction L generalizing bs with
  | nil => simp at h
  | cons d rest ih =>
    cases bs with
    | nil => simp at hl
    | cons b brest =>
      simp only [List.zip_cons_cons, List.lookup]
      by_cases hcd : c = d
      · subst hcd; simp
      · have : (c == d) = false := by simp [hcd]
        rw [this]
        exact ih brest (by simpa [hcd] using h) (by simpa using hl)

/-- C7: `generate_from_formulas` on the single formula `A ∧ B` produces
headers `[A, B, A ∧ B]` and exactly the four rows
`(T,T,T),(T,F,F),(F,T,F),(F,F,F)` in that fixed order (propositions
sorted alphabetically, assignments enumerated with `True` before
`False`). -/
theorem C7_truth_table_scenario :
    (formula? "A ∧ B").bind (fun f => generate_from_formulas [f]) =
      some ⟨["A", "B", "A ∧ B"],
        [[some true, some true, some true],
         [some true, some false, some false],
         [some false, some true, some false],
         [some false, some false, some false]]⟩ := by rfl

/-- C10: `Formula.evaluate` depends only on the truth values assigned to
the formula's referenced atomic propositions: two assignments that both
cover every referenced proposition and agree on all of them give the
same (defined) result, so entries for unreferenced propositions never
affect the outcome. -/
theorem C10_evaluate_noninterference (f : Formula)
    (tv1 tv2 : List (Char × Bool))
    (h : ∀ c ∈ sorted_props f.ast,
      tv1.lookup c = tv2.lookup c ∧ (tv1.lookup c).isSome = true) :
    evaluate f tv1 = evaluate f tv2 ∧ (evaluate f tv1).isSome = true := by
  have hcov1 : (sorted_props f.ast).all (fun p => (tv1.lookup p).isSome) = true := by
    rw [List.all_eq_true]
    exact fun p hp => (h p hp).2
  have hcov2 : (sorted_props f.ast).all (fun p => (tv2.lookup p).isSome) = true := by
    rw [List.all_eq_true]
    intro p hp
    rw [← (h p hp).1]
    exact (h p hp).2
  have hnode : eval_node f.ast tv1 = eval_node f.ast tv2 := by
    refine eval_node_congr _ _ _ (fun c hc => ?_)
    exact (h c (by simpa [sorted_props, mem_foldr_insort] using hc)).1
  rw [evaluate, evaluate, if_pos hcov1, if_pos hcov2, hnode]
  simp

/-- Witness for C10 at a concrete input: `A ∧ B` under two assignments
that agree on `A`, `B` but differ on the unreferenced `Z`. -/
theorem C10_evaluate_noninterference_witness :
    evaluate ⟨"A ∧ B", .BIN .AND (.PROP 'A') (.PROP 'B')⟩
        [('A', true), ('B', false)] =
      evaluate ⟨"A ∧ B", .BIN .AND (.PROP 'A') (.PROP 'B')⟩
        [('B', false), ('Z', true), ('A', true)] :=
  (C10_evaluate_noninterference ⟨"A ∧ B", .BIN .AND (.PROP 'A') (.PROP 'B')⟩
    [('A', true), ('B', false)] [('B', false), ('Z', true), ('A', true)]
    (by decide)).1

/-- C9: `check_logical_equivalence` returns `true` exactly when the two
formulas take equal truth values under every assignment (equivalently,
every assignment over the union of their atomic propositions). -/
theorem C9_check_equivalence (f1 f2 : Formula) :
    check_logical_equivalence f1 f2 = true ↔
      ∀ σ : Char → Bool, eval_total f1.ast σ = eval_total f2.ast σ := by
  simp only [check_logical_equivalence]
  have hsub1 : ∀ c ∈ collect_props f1.ast,
      c ∈ (collect_props f1.ast ++ collect_props f2.ast).foldr insort [] := by
    intro c hc
    rw [mem_foldr_insort, List.mem_append]
    exact Or.inl hc
  have hsub2 : ∀ c ∈ collect_props f2.ast,
      c ∈ (collect_props f1.ast ++ collect_props f2.ast).foldr insort [] := by
    intro c hc
    rw [mem_foldr_insort, List.mem_append]
    exact Or.inr hc
  by_cases hemp :
      (collect_props f1.ast ++ collect_props f2.ast).foldr insort [] = []
  · rw [hemp]
    have hboth : collect_props f1.ast = [] ∧ collect_props f2.ast = [] := by
      have h := foldr_insort_eq_nil.mp hemp
      exact List.append_eq_nil.mp h
    have hev1 : evaluate f1 [] = some (eval_node f1.ast []) := by
      rw [evaluate, if_pos]
      rw [List.all_eq_true]
      intro p hp
      rw [sorted_props, hboth.1] at hp
      simp at hp
    have hev2 : evaluate f2 [] = some (eval_node f2.ast []) := by
      rw [evaluate, if_pos]
      rw [List.all_eq_true]
      intro p hp
      rw [sorted_props, hboth.2] at hp
      simp at hp
    have htot1 : ∀ σ : Char → Bool, eval_node f1.ast [] = eval_total f1.ast σ := by
      intro σ
      refine eval_node_total _ _ _ (fun c hc => ?_)
      rw [hboth.1] at hc
      simp at hc
    have htot2 : ∀ σ : Char → Bool, eval_node f2.ast [] = eval_total f2.ast σ := by
      intro σ
      refine eval_node_total _ _ _ (fun c hc => ?_)
      rw [hboth.2] at hc
      simp at hc
    simp only [List.isEmpty_nil, if_true, hev1, hev2]
    constructor
    · intro hbe σ
      rw [← htot1 σ, ← htot2 σ]
      exact beq_iff_eq.mp hbe
    · intro hσ
      rw [beq_iff_eq, htot1 (fun _ => false), htot2 (fun _ => false)]
      exact hσ _
  · set L := (collect_props f1.ast ++ collect_props f2.ast).foldr insort []
      with hLdef
    have hLne : L.isEmpty = false := by
      cases hL : L with
      | nil => exact absurd hL hemp
      | cons a as => simp
    rw [hLne]
    simp only [Bool.false_eq_true, if_false, List.all_eq_true]
    constructor
    · intro hall σ
      have hmem := map_mem_bool_products L σ
      have := hall (L.map σ) hmem
      have hev1 : evaluate f1 (L.zip (L.map σ)) = some (eval_total f1.ast σ) := by
        rw [evaluate, if_pos, eval_node_total f1.ast _ σ]
        · intro c hc
          exact lookup_zip_map L σ c
            (hsub1 c (by simpa [sorted_props, mem_foldr_insort] using hc))
        · rw [List.all_eq_true]
          intro p hp
          rw [lookup_zip_map L σ p
            (hsub1 p (by simpa [sorted_props, mem_foldr_insort] using hp))]
          rfl
      have hev2 : evaluate f2 (L.zip (L.map σ)) = some (eval_total f2.ast σ) := by
        rw [evaluate, if_pos, eval_node_total f2.ast _ σ]
        · intro c hc
          exact lookup_zip_map L σ c
            (hsub2 c (by simpa [sorted_props, mem_foldr_insort] using hc))
        · rw [List.all_eq_true]
          intro p hp
          rw [lookup_zip_map L σ p
            (hsub2 p (by simpa [sorted_props, mem_foldr_insort] using hp))]
          rfl
      rw [hev1, hev2] at this
      exact beq_iff_eq.mp this
    · intro hσ bs hbs
      have hlen : bs.length = L.length := bool_products_length hbs
      set σ := fun c => (((L.zip bs).lookup c).getD false) with hσdef
      have hlk : ∀ c ∈ L, (L.zip bs).lookup c = some (σ c) := by
        intro c hc
        have := lookup_zip_isSome L bs c hc hlen
        cases hx : (L.zip bs).lookup c with
        | none => rw [hx] at this; simp at this
        | some b => rw [hσdef]; simp [hx]
      have hev1 : evaluate f1 (L.zip bs) = some (eval_total f1.ast σ) := by
        rw [evaluate, if_pos, eval_node_total f1.ast _ σ]
        · intro c hc
          exact hlk c (hsub1 c (by simpa [sorted_props, mem_foldr_insort] using hc))
        · rw [List.all_eq_true]
          intro p hp
          exact lookup_zip_isSome L bs p
            (hsub1 p (by simpa [sorted_props, mem_foldr_insort] using hp)) hlen
      have hev2 : evaluate f2 (L.zip bs) = some (eval_total f2.ast σ) := by
        rw [evaluate, if_pos, eval_node_total f2.ast _ σ]
        · intro c hc
          exact hlk c (hsub2 c (by simpa [sorted_props, mem_foldr_insort] using hc))
        · rw [List.all_eq_true]
          intro p hp
          exact lookup_zip_isSome L bs p
            (hsub2 p (by simpa [sorted_props, mem_foldr_insort] using hp)) hlen
      rw [hev1, hev2]
      exact beq_iff_eq.mpr (hσ σ)

/-- Exhaustive case analysis of `apply_rule`: every failure path returns
`(False, …)` with the state untouched; the success path appends exactly
one step and recomputes the completion flag. -/
theorem apply_rule_cases (ps : ProofSystem) (rn : String) (idxs : List Nat)
    (kw : Kw) :
    ((apply_rule ps rn idxs kw).1.1 = false ∧ (apply_rule ps rn idxs kw).2 = ps)
    ∨ (∃ r fs nf,
        (get_rule_by_name rn).orElse (fun _ => get_rule_by_abbreviation rn) = some r
        ∧ resolve_steps ps.proof_steps idxs = .ok fs
        ∧ can_apply_rule r fs = true
        ∧ rule_apply r fs kw = some nf
        ∧ ps.proof_steps.any (fun st => strF st.formula == strF nf) = false
        ∧ apply_rule ps rn idxs kw =
            ((true, "Applied " ++ rule_name r ++ " successfully",
              some ⟨ps.step_index, nf, rule_name r, idxs⟩),
             { ps with
               proof_steps := ps.proof_steps ++ [⟨ps.step_index, nf, rule_name r, idxs⟩]
               step_index := ps.step_index + 1
               is_complete :=
                 check_flag (ps.proof_steps ++ [⟨ps.step_index, nf, rule_name r, idxs⟩])
                   ps.conclusion ps.is_complete })) := by
  cases hr : (get_rule_by_name rn).orElse (fun _ => get_rule_by_abbreviation rn) with
  | none =>
    left
    unfold apply_rule
    rw [hr]
    exact ⟨rfl, rfl⟩
  | some r =>
    cases hres : resolve_steps ps.proof_steps idxs with
    | error i =>
      left
      unfold apply_rule
      rw [hr, hres]
      exact ⟨rfl, rfl⟩
    | ok fs =>
      cases hca : can_apply_rule r fs with
      | false =>
        left
        unfold apply_rule
        rw [hr, hres]
        simp [hca]
      | true =>
        cases hap : rule_apply r fs kw with
        | none =>
          left
          unfold apply_rule
          rw [hr, hres]
          simp [hca, hap]
        | some nf =>
          cases hdup : ps.proof_steps.any (fun st => strF st.formula == strF nf) with
          | true =>
            left
            unfold apply_rule
            rw [hr, hres]
            simp [hca, hap, hdup]
          | false =>
            right
            refine ⟨r, fs, nf, rfl, rfl, hca, hap, hdup, ?_⟩
            unfold apply_rule
            rw [hr, hres]
            simp [hca, hap, hdup]

/-- Case analysis of `add_premise`: duplicate display string fails with
the state untouched, otherwise the premise and a `"Premise"` step are
appended. -/
theorem add_premise_cases (ps : ProofSystem) (f : Formula) :
    (ps.premises.any (fun p => strF p == strF f) = true
      ∧ add_premise ps f = ((false, "Premise already exists"), ps))
    ∨ (ps.premises.any (fun p => strF p == strF f) = false
      ∧ add_premise ps f =
          ((true, "Premise added successfully"),
            { ps with
              premises := ps.premises ++ [f]
              proof_steps := ps.proof_steps ++ [⟨ps.step_index, f, "Premise", []⟩]
              step_index := ps.step_index + 1 })) := by
  cases hdup : ps.premises.any (fun p => strF p == strF f) with
  | true =>
    left
    refine ⟨rfl, ?_⟩
    unfold add_premise
    rw [hdup]
    simp
  | false =>
    right
    refine ⟨rfl, ?_⟩
    unfold add_premise
    rw [hdup]
    simp

/-- C3 (as stated) is false on the code: after the mutating operation
`set_conclusion`, a step's formula is structurally equal to the set
conclusion (`A` versus `(A)`), yet the completion flag is false, because
`_check_if_complete` compares canonical display strings rather than
structural equality. -/
theorem C3_counterexample :
    ((formula? "A").bind fun f => (formula? "(A)").bind fun g =>
      some (decide (f.ast = g.ast),
        (set_conclusion (add_premise empty_proof f).2 g).2.conclusion.isSome,
        (set_conclusion (add_premise empty_proof f).2 g).2.is_complete))
    = some (true, true, false) := by rfl

/-- C3 (amended): the completion flag tracks *display-string* equality
(`str(step.formula) == str(conclusion)`) rather than structural
equality, and it is recomputed only by `set_conclusion` and by a
successful `apply_rule`; `add_premise` leaves the flag unchanged even
when the new premise matches the conclusion. -/
theorem C3_amended (ps : ProofSystem) (f : Formula) :
    ((set_conclusion ps f).2.is_complete = true ↔
      ∃ st ∈ ps.proof_steps, strF st.formula = strF f)
    ∧ (add_premise ps f).2.is_complete = ps.is_complete
    ∧ (∀ rn idxs kw c, ps.conclusion = some c →
        (apply_rule ps rn idxs kw).1.1 = true →
        ((apply_rule ps rn idxs kw).2.is_complete = true ↔
          ∃ st ∈ (apply_rule ps rn idxs kw).2.proof_steps,
            strF st.formula = strF c))
    ∧ (∀ rn idxs kw, ps.conclusion = none →
        (apply_rule ps rn idxs kw).2.is_complete = ps.is_complete) := by
  refine ⟨?_, ?_, ?_, ?_⟩
  · unfold set_conclusion check_flag
    simp only [List.any_eq_true, beq_iff_eq]
  · rcases add_premise_cases ps f with ⟨_, h⟩ | ⟨_, h⟩ <;> rw [h]
  · intro rn idxs kw c hc hok
    rcases apply_rule_cases ps rn idxs kw with ⟨hfail, _⟩ | ⟨r, fs, nf, _, _, _, _, _, heq⟩
    · rw [hok] at hfail; cases hfail
    · rw [heq]
      simp only [check_flag, hc, List.any_eq_true, beq_iff_eq]
  · intro rn idxs kw hc
    rcases apply_rule_cases ps rn idxs kw with ⟨_, hst⟩ | ⟨r, fs, nf, _, _, _, _, _, heq⟩
    · rw [hst]
    · rw [heq]
      simp [check_flag, hc]

/-- Witness for C3 (amended) at a concrete input: setting conclusion `A`
over a state containing the premise step `A` flips the flag to true. -/
theorem C3_amended_witness :
    (set_conclusion (add_premise empty_proof ⟨"A", .PROP 'A'⟩).2
      ⟨"A", .PROP 'A'⟩).2.is_complete = true :=
  ((C3_amended (add_premise empty_proof ⟨"A", .PROP 'A'⟩).2 ⟨"A", .PROP 'A'⟩).1).mpr
    ⟨⟨1, ⟨"A", .PROP 'A'⟩, "Premise", []⟩, by decide, rfl⟩

/-- C4 (as stated) is false on the code: `(A ∧ B)` is structurally equal
to the existing premise `A ∧ B`, yet `add_premise` accepts it, because
the duplicate check compares canonical display strings, which still
differ by the surrounding parentheses. -/
theorem C4_counterexample :
    ((formula? "A ∧ B").bind fun f => (formula? "(A ∧ B)").bind fun g =>
      some (decide (f.ast = g.ast),
        (add_premise (add_premise empty_proof f).2 g).1.1,
        (add_premise (add_premise empty_proof f).2 g).2.premises.length))
    = some (true, true, 2) := by rfl

/-- C4 (amended): `add_premise` fails exactly when an existing premise
has the same canonical display string (a strictly finer relation than
structural equality), leaving the state untouched; otherwise it appends
the premise and a step justified `"Premise"` carrying the next index. -/
theorem C4_amended (ps : ProofSystem) (f : Formula) :
    ((add_premise ps f).1.1 = false ↔ ∃ p ∈ ps.premises, strF p = strF f)
    ∧ ((add_premise ps f).1.1 = false → (add_premise ps f).2 = ps)
    ∧ ((add_premise ps f).1.1 = true →
        (add_premise ps f).2.proof_steps
            = ps.proof_steps ++ [⟨ps.step_index, f, "Premise", []⟩]
          ∧ (add_premise ps f).2.premises = ps.premises ++ [f]
          ∧ (add_premise ps f).2.step_index = ps.step_index + 1) := by
  rcases add_premise_cases ps f with ⟨hdup, h⟩ | ⟨hdup, h⟩ <;> rw [h]
  · refine ⟨?_, fun _ => rfl, ?_⟩
    · constructor
      · intro _
        obtain ⟨p, hp, he⟩ := List.any_eq_true.mp hdup
        exact ⟨p, hp, beq_iff_eq.mp he⟩
      · intro _; rfl
    · intro hx; simp at hx
  · refine ⟨?_, ?_, fun _ => ⟨rfl, rfl, rfl⟩⟩
    · constructor
      · intro hx; simp at hx
      · rintro ⟨p, hp, he⟩
        have hx : ps.premises.any (fun q => strF q == strF f) = true :=
          List.any_eq_true.mpr ⟨p, hp, beq_iff_eq.mpr he⟩
        rw [hdup] at hx
        cases hx
    · intro hx; simp at hx

/-- Witness for C4 (amended): adding `A` to the empty proof appends the
expected `"Premise"` step with index 1. -/
theorem C4_amended_witness :
    (add_premise empty_proof ⟨"A", .PROP 'A'⟩).2.proof_steps
      = [⟨1, ⟨"A", .PROP 'A'⟩, "Premise", []⟩] := by
  have h := (C4_amended empty_proof ⟨"A", .PROP 'A'⟩).2.2 (by rfl)
  simpa [empty_proof] using h.1

/-- C5: the mutating operations are atomic.  A failing `add_premise` or
`apply_rule` (unknown rule, missing step index, rejected precondition,
failed conclusion construction, duplicate resulting formula) returns a
failure flag and leaves the whole proof state exactly as it was;
`set_conclusion` never fails on a `Formula`. -/
theorem C5_atomicity (ps : ProofSystem) (f : Formula) (rn : String)
    (idxs : List Nat) (kw : Kw) :
    ((add_premise ps f).1.1 = false → (add_premise ps f).2 = ps)
    ∧ (set_conclusion ps f).1.1 = true
    ∧ ((apply_rule ps rn idxs kw).1.1 = false → (apply_rule ps rn idxs kw).2 = ps) := by
  refine ⟨?_, rfl, ?_⟩
  · intro hfail
    rcases add_premise_cases ps f with ⟨_, h⟩ | ⟨_, h⟩
    · rw [h]
    · rw [h] at hfail
      simp at hfail
  · intro hfail
    rcases apply_rule_cases ps rn idxs kw with ⟨_, h⟩ | ⟨r, fs, nf, _, _, _, _, _, h⟩
    · exact h
    · rw [h] at hfail; cases hfail

/-- Witness for C5 at concrete failing inputs: a duplicate premise and a
missing step index both fail and leave the state unchanged. -/
theorem C5_atomicity_witness :
    (add_premise (add_premise empty_proof ⟨"A", .PROP 'A'⟩).2 ⟨"A", .PROP 'A'⟩).2
        = (add_premise empty_proof ⟨"A", .PROP 'A'⟩).2
    ∧ (apply_rule (add_premise empty_proof ⟨"A", .PROP 'A'⟩).2 "MP" [1, 99] {}).2
        = (add_premise empty_proof ⟨"A", .PROP 'A'⟩).2 :=
  ⟨(C5_atomicity (add_premise empty_proof ⟨"A", .PROP 'A'⟩).2 ⟨"A", .PROP 'A'⟩
      "MP" [1, 99] {}).1 (by rfl),
   (C5_atomicity (add_premise empty_proof ⟨"A", .PROP 'A'⟩).2 ⟨"A", .PROP 'A'⟩
      "MP" [1, 99] {}).2.2 (by rfl)⟩

/-- C1 is violated by the code (code bug): Modus Ponens applied to the
true premises `D → (A ↑ (B ∧ C))` and `D` produces — via printing and
re-parsing the consequent, which silently drops the parentheses between
the same-precedence operators `↑` and `∧` — the formula `A ↑ B ∧ C` =
`(A ↑ B) ∧ C`, which is false under `A=T, B=T, C=F, D=T` although both
inputs are true.  The rule's own docstring promises the consequent. -/
theorem C1_mp_unsound_on_reparse :
    ((formula? "D → (A ↑ (B ∧ C))").bind fun f1 =>
      (formula? "D").bind fun f2 =>
        (rule_apply .MP [f2, f1] {}).map fun g =>
          (can_apply_rule .MP [f2, f1],
            evaluate f1 [('A', true), ('B', true), ('C', false), ('D', true)],
            evaluate f2 [('A', true), ('B', true), ('C', false), ('D', true)],
            strF g,
            evaluate g [('A', true), ('B', true), ('C', false), ('D', true)]))
    = some (true, some true, some true, "A ↑ B ∧ C", some false) := by rfl

/-- C6 is violated by the code (code bug): `Absorption.can_apply`
accepts any implication, but `Absorption.apply` returns `None` on
`A → (B ∧ C)` — an implication whose consequent is a conjunction with
neither conjunct equal to the antecedent — for every parameter setting
(the rule takes none), contradicting the contract and the rule's
docstring. -/
theorem C6_absorption_builder_fails (kw : Kw) :
    ((formula? "A → (B ∧ C)").map fun f =>
      (can_apply_rule .ABS [f], rule_apply .ABS [f] kw)) = some (true, none) := by rfl

/-- C2 (as stated) is false on the code: the parser accepts
`A ∨ (B ∨ C)` as a right-nested disjunction, the printer renders it as
`A ∨ B ∨ C` without parentheses, and re-parsing left-associates, giving
a structurally different AST. -/
theorem C2_roundtrip_counterexample :
    ((formula? "A ∨ (B ∨ C)").map fun f =>
      ((formula? (render f.ast)).map Formula.ast, f.ast))
      = some (some (.BIN .OR (.BIN .OR (.PROP 'A') (.PROP 'B')) (.PROP 'C')),
              .BIN .OR (.PROP 'A') (.BIN .OR (.PROP 'B') (.PROP 'C')))
    ∧ Ast.BIN .OR (.BIN .OR (.PROP 'A') (.PROP 'B')) (.PROP 'C')
        ≠ Ast.BIN .OR (.PROP 'A') (.BIN .OR (.PROP 'B') (.PROP 'C')) :=
  ⟨rfl, by decide⟩

/-- C8 (as stated) is false on the code: `auto_prove` checks the budget
only between rounds.  From the single premise `A ∧ B` with conclusion
`Z` and `max_steps = 1`, the first round already appends two steps
(Conjunction Elimination on both sides), exceeding the budget of one. -/
theorem C8_budget_counterexample :
    ((formula? "A ∧ B").bind fun p => (formula? "Z").bind fun c =>
      some ((auto_prove (set_conclusion (add_premise empty_proof p).2 c).2 1).2.proof_steps.length,
            (set_conclusion (add_premise empty_proof p).2 c).2.proof_steps.length))
    = some (3, 1) := by rfl

theorem apply_rule_ok_inv (ps : ProofSystem) (rn : String) (idxs : List Nat)
    (kw : Kw) (h : (apply_rule ps rn idxs kw).1.1 = true) :
    (apply_rule ps rn idxs kw).2.premises = ps.premises
    ∧ (apply_rule ps rn idxs kw).2.conclusion = ps.conclusion
    ∧ ∃ stp, (apply_rule ps rn idxs kw).2.proof_steps = ps.proof_steps ++ [stp] := by
  rcases apply_rule_cases ps rn idxs kw with ⟨hf, _⟩ | ⟨r, fs, nf, _, _, _, _, _, heq⟩
  · rw [h] at hf; cases hf
  · rw [heq]; exact ⟨rfl, rfl, _, rfl⟩

theorem apply_rule_fail_inv (ps : ProofSystem) (rn : String) (idxs : List Nat)
    (kw : Kw) (h : (apply_rule ps rn idxs kw).1.1 = false) :
    (apply_rule ps rn idxs kw).2 = ps := by
  rcases apply_rule_cases ps rn idxs kw with ⟨_, h2⟩ | ⟨r, fs, nf, _, _, _, _, _, heq⟩
  · exact h2
  · rw [heq] at h; cases h

theorem sweep_inv_refl (ps : ProofSystem) (cnt : Nat) :
    SweepInv ps cnt (.ok (ps, cnt)) :=
  ⟨rfl, rfl, ⟨[], by simp⟩, le_refl _, by omega, fun _ => rfl, fun h => h⟩

theorem sweep_inv_trans {ps ps1 : ProofSystem} {cnt c1 : Nat} {r : SweepRes}
    (h1 : SweepInv ps cnt (.ok (ps1, c1))) (h2 : SweepInv ps1 c1 r) :
    SweepInv ps cnt r := by
  obtain ⟨hp, hc, ⟨e1, hs⟩, hle, hlen, hz, hf⟩ := h1
  cases r with
  | error e =>
    obtain ⟨hcm, hp2, hc2, e2, hs2⟩ := h2
    exact ⟨hcm, hp2.trans hp, hc2.trans hc,
      ⟨e1 ++ e2, by rw [hs2, hs, List.append_assoc]⟩⟩
  | ok pc =>
    obtain ⟨ps2, c2⟩ := pc
    obtain ⟨hp2, hc2, ⟨e2, hs2⟩, hle2, hlen2, hz2, hf2⟩ := h2
    refine ⟨hp2.trans hp, hc2.trans hc,
      ⟨e1 ++ e2, by rw [hs2, hs, List.append_assoc]⟩,
      le_trans hle hle2, ?_, ?_, fun h0 => hf2 (hf h0)⟩
    · have := congrArg List.length hs
      have := congrArg List.length hs2
      simp at *
      omega
    · intro h0
      have hc1 : c1 = cnt := le_antisymm (by omega) hle
      have he1 : ps1 = ps := hz hc1
      have he2 : ps2 = ps1 := hz2 (by omega)
      rw [he2, he1]

/-- A successful `apply_rule` whose result was checked incomplete is one
counted sweep step. -/
theorem sweep_inv_try (ps : ProofSystem) (rn : String) (idxs : List Nat)
    (kw : Kw) (cnt : Nat) (h : (apply_rule ps rn idxs kw).1.1 = true)
    (hflag : (apply_rule ps rn idxs kw).2.is_complete = false) :
    SweepInv ps cnt (.ok ((apply_rule ps rn idxs kw).2, cnt + 1)) := by
  obtain ⟨hp, hc, stp, hs⟩ := apply_rule_ok_inv ps rn idxs kw h
  refine ⟨hp, hc, ⟨[stp], hs⟩, by omega, ?_, by omega, fun _ => hflag⟩
  rw [hs]
  simp
  omega

theorem try_orders_inv (rn : String) :
    ∀ (l : List (List Nat)) (ps : ProofSystem) (cnt : Nat),
      SweepInv ps cnt (try_orders ps rn cnt l) := by
  intro l
  induction l with
  | nil => intro ps cnt; exact sweep_inv_refl ps cnt
  | cons idxs rest ih =>
    intro ps cnt
    rcases hA : apply_rule ps rn idxs {} with ⟨⟨ok, msg, stp⟩, ps'⟩
    cases ok
    case false =>
      have hps' : ps' = ps := by
        have := apply_rule_fail_inv ps rn idxs {} (by rw [hA])
        rw [hA] at this
        exact this
      unfold try_orders
      rw [hA]
      show SweepInv ps cnt (try_orders ps' rn cnt rest)
      rw [hps']
      exact ih ps cnt
    case true =>
      unfold try_orders
      rw [hA]
      show SweepInv ps cnt
        (if ps'.is_complete then Except.error (ps', "Proof complete! Used " ++ rn)
         else Except.ok (ps', cnt + 1))
      by_cases hcmp : ps'.is_complete
      · rw [if_pos hcmp]
        have h2 := apply_rule_ok_inv ps rn idxs {} (by rw [hA])
        rw [hA] at h2
        obtain ⟨hp, hc, stp, hs⟩ := h2
        exact ⟨hcmp, hp, hc, ⟨[stp], hs⟩⟩
      · rw [if_neg hcmp]
        have h1 := sweep_inv_try ps rn idxs {} cnt (by rw [hA])
          (by rw [hA]; simpa using hcmp)
        rw [hA] at h1
        exact h1

theorem try_params_inv (rn : String) (idx : Nat) :
    ∀ (l : List Kw) (ps : ProofSystem) (cnt : Nat),
      SweepInv ps cnt (try_params ps rn idx cnt l) := by
  intro l
  induction l with
  | nil => intro ps cnt; exact sweep_inv_refl ps cnt
  | cons kw rest ih =>
    intro ps cnt
    rcases hA : apply_rule ps rn [idx] kw with ⟨⟨ok, msg, stp⟩, ps'⟩
    cases ok
    case false =>
      have hps' : ps' = ps := by
        have := apply_rule_fail_inv ps rn [idx] kw (by rw [hA])
        rw [hA] at this
        exact this
      unfold try_params
      rw [hA]
      show SweepInv ps cnt (try_params ps' rn idx cnt rest)
      rw [hps']
      exact ih ps cnt
    case true =>
      unfold try_params
      rw [hA]
      show SweepInv ps cnt
        (if ps'.is_complete then Except.error (ps', "Proof complete! Used " ++ rn)
         else try_params ps' rn idx (cnt + 1) rest)
      by_cases hcmp : ps'.is_complete
      · rw [if_pos hcmp]
        have h2 := apply_rule_ok_inv ps rn [idx] kw (by rw [hA])
        rw [hA] at h2
        obtain ⟨hp, hc, stp, hs⟩ := h2
        exact ⟨hcmp, hp, hc, ⟨[stp], hs⟩⟩
      · rw [if_neg hcmp]
        have h1 := sweep_inv_try ps rn [idx] kw cnt (by rw [hA])
          (by rw [hA]; simpa using hcmp)
        rw [hA] at h1
        exact sweep_inv_trans h1 (ih ps' (cnt + 1))

theorem bin_inner_inv (rn : String) (s1 : ProofStep) :
    ∀ (l : List ProofStep) (ps : ProofSystem) (cnt : Nat),
      SweepInv ps cnt (bin_inner rn s1 ps cnt l) := by
  intro l
  induction l with
  | nil => intro ps cnt; exact sweep_inv_refl ps cnt
  | cons s2 rest ih =>
    intro ps cnt
    unfold bin_inner
    rcases hT : try_orders ps rn cnt [[s1.index, s2.index], [s2.index, s1.index]] with e | ⟨ps1, c1⟩
    · have hI := try_orders_inv rn [[s1.index, s2.index], [s2.index, s1.index]] ps cnt
      rw [hT] at hI
      exact hI
    · have hI := try_orders_inv rn [[s1.index, s2.index], [s2.index, s1.index]] ps cnt
      rw [hT] at hI
      exact sweep_inv_trans hI (ih ps1 c1)

theorem bin_outer_inv (rn : String) :
    ∀ (l : List ProofStep) (ps : ProofSystem) (cnt i : Nat),
      SweepInv ps cnt (bin_outer rn ps cnt i l) := by
  intro l
  induction l with
  | nil => intro ps cnt i; exact sweep_inv_refl ps cnt
  | cons s1 rest ih =>
    intro ps cnt i
    unfold bin_outer
    rcases hT : bin_inner rn s1 ps cnt (ps.proof_steps.drop (i + 1)) with e | ⟨ps1, c1⟩
    · have hI := bin_inner_inv rn s1 (ps.proof_steps.drop (i + 1)) ps cnt
      rw [hT] at hI
      exact hI
    · have hI := bin_inner_inv rn s1 (ps.proof_steps.drop (i + 1)) ps cnt
      rw [hT] at hI
      exact sweep_inv_trans hI (ih ps1 c1 (i + 1))

theorem unary_sweep_inv (rn : String) (kws : List Kw) :
    ∀ (l : List ProofStep) (ps : ProofSystem) (cnt : Nat),
      SweepInv ps cnt (unary_sweep rn kws ps cnt l) := by
  intro l
  induction l with
  | nil => intro ps cnt; exact sweep_inv_refl ps cnt
  | cons s rest ih =>
    intro ps cnt
    unfold unary_sweep
    rcases hT : try_params ps rn s.index cnt kws with e | ⟨ps1, c1⟩
    · have hI := try_params_inv rn s.index kws ps cnt
      rw [hT] at hI
      exact hI
    · have hI := try_params_inv rn s.index kws ps cnt
      rw [hT] at hI
      exact sweep_inv_trans hI (ih ps1 c1)

theorem cd_inner_inv (s1 s2 : ProofStep) :
    ∀ (l : List ProofStep) (ps : ProofSystem) (cnt : Nat),
      SweepInv ps cnt (cd_inner s1 s2 ps cnt l) := by
  intro l
  induction l with
  | nil => intro ps cnt; exact sweep_inv_refl ps cnt
  | cons s3 rest ih =>
    intro ps cnt
    unfold cd_inner
    rcases hT : try_orders ps (rule_name .CD) cnt
        [[s1.index, s2.index, s3.index],
         [s1.index, s3.index, s2.index],
         [s2.index, s3.index, s1.index]] with e | ⟨ps1, c1⟩
    · have hI := try_orders_inv (rule_name .CD)
        [[s1.index, s2.index, s3.index],
         [s1.index, s3.index, s2.index],
         [s2.index, s3.index, s1.index]] ps cnt
      rw [hT] at hI
      exact hI
    · have hI := try_orders_inv (rule_name .CD)
        [[s1.index, s2.index, s3.index],
         [s1.index, s3.index, s2.index],
         [s2.index, s3.index, s1.index]] ps cnt
      rw [hT] at hI
      exact sweep_inv_trans hI (ih ps1 c1)

theorem cd_mid_inv (s1 : ProofStep) :
    ∀ (l : List ProofStep) (ps : ProofSystem) (cnt j : Nat),
      SweepInv ps cnt (cd_mid s1 ps cnt j l) := by
  intro l
  induction l with
  | nil => intro ps cnt j; exact sweep_inv_refl ps cnt
  | cons s2 rest ih =>
    intro ps cnt j
    unfold cd_mid
    rcases hT : cd_inner s1 s2 ps cnt (ps.proof_steps.drop (j + 1)) with e | ⟨ps1, c1⟩
    · have hI := cd_inner_inv s1 s2 (ps.proof_steps.drop (j + 1)) ps cnt
      rw [hT] at hI
      exact hI
    · have hI := cd_inner_inv s1 s2 (ps.proof_steps.drop (j + 1)) ps cnt
      rw [hT] at hI
      exact sweep_inv_trans hI (ih ps1 c1 (j + 1))

theorem cd_outer_inv :
    ∀ (l : List ProofStep) (ps : ProofSystem) (cnt i : Nat),
      SweepInv ps cnt (cd_outer ps cnt i l) := by
  intro l
  induction l with
  | nil => intro ps cnt i; exact sweep_inv_refl ps cnt
  | cons s1 rest ih =>
    intro ps cnt i
    unfold cd_outer
    rcases hT : cd_mid s1 ps cnt (i + 1) (ps.proof_steps.drop (i + 1)) with e | ⟨ps1, c1⟩
    · have hI := cd_mid_inv s1 (ps.proof_steps.drop (i + 1)) ps cnt (i + 1)
      rw [hT] at hI
      exact hI
    · have hI := cd_mid_inv s1 (ps.proof_steps.drop (i + 1)) ps cnt (i + 1)
      rw [hT] at hI
      exact sweep_inv_trans hI (ih ps1 c1 (i + 1))

theorem rule_sweep_inv (ps : ProofSystem) (r : RuleId) (cnt : Nat) :
    SweepInv ps cnt (rule_sweep ps r cnt) := by
  cases r
  case ADD => exact sweep_inv_refl ps cnt
  case DN => exact unary_sweep_inv _ _ _ ps cnt
  case MP => exact bin_outer_inv _ _ ps cnt 0
  case MT => exact bin_outer_inv _ _ ps cnt 0
  case HS => exact bin_outer_inv _ _ ps cnt 0
  case DS => exact bin_outer_inv _ _ ps cnt 0
  case CI => exact bin_outer_inv _ _ ps cnt 0
  case BI => exact bin_outer_inv _ _ ps cnt 0
  case RES => exact bin_outer_inv _ _ ps cnt 0
  case CD => exact cd_outer_inv _ ps cnt 0
  case CE => exact unary_sweep_inv _ _ _ ps cnt
  case SIMP => exact unary_sweep_inv _ _ _ ps cnt
  case BE => exact unary_sweep_inv _ _ _ ps cnt
  case DML1 => exact unary_sweep_inv _ _ _ ps cnt
  case DML2 => exact unary_sweep_inv _ _ _ ps cnt
  case TRANS => exact unary_sweep_inv _ _ _ ps cnt
  case IMPL => exact unary_sweep_inv _ _ _ ps cnt
  case EXP => exact unary_sweep_inv _ _ _ ps cnt
  case ABS => exact unary_sweep_inv _ _ _ ps cnt

theorem round_go_inv :
    ∀ (l : List RuleId) (ps : ProofSystem) (cnt : Nat),
      SweepInv ps cnt (round_go l ps cnt) := by
  intro l
  induction l with
  | nil => intro ps cnt; exact sweep_inv_refl ps cnt
  | cons r rest ih =>
    intro ps cnt
    unfold round_go
    rcases hT : rule_sweep ps r cnt with e | ⟨ps1, c1⟩
    · have hI := rule_sweep_inv ps r cnt
      rw [hT] at hI
      exact hI
    · have hI := rule_sweep_inv ps r cnt
      rw [hT] at hI
      exact sweep_inv_trans hI (ih ps1 c1)

theorem round_rules_inv (ps : ProofSystem) : SweepInv ps 0 (round_rules ps) :=
  round_go_inv get_all_rules ps 0

theorem auto_loop_inv (m : Nat) :
    ∀ (fuel : Nat) (ps : ProofSystem) (added : Nat),
      ps.is_complete = false → m ≤ added + fuel →
      ((auto_loop m fuel ps added).1.1 = true
          ↔ (auto_loop m fuel ps added).2.is_complete = true)
      ∧ (∃ ext, (auto_loop m fuel ps added).2.proof_steps = ps.proof_steps ++ ext)
      ∧ ((auto_loop m fuel ps added).1.1 = false →
          (auto_loop m fuel ps added).2.proof_steps.length + added
              ≥ ps.proof_steps.length + m
            ∨ round_rules (auto_loop m fuel ps added).2
                = .ok ((auto_loop m fuel ps added).2, 0)) := by
  intro fuel
  induction fuel with
  | zero =>
    intro ps added hic hfb
    have hred : auto_loop m 0 ps added = ((false, "Could not complete proof within the step limit."), ps) := by
      unfold auto_loop auto_finish
      rw [hic]
      simp
    rw [hred]
    refine ⟨by simp [hic], ⟨[], by simp⟩, fun _ => Or.inl ?_⟩
    show ps.proof_steps.length + added ≥ ps.proof_steps.length + m
    omega
  | succ fuel ih =>
    intro ps added hic hfb
    by_cases hlt : added < m
    · have hcond : (added < m ∧ ps.is_complete = false) := ⟨hlt, hic⟩
      rcases hR : round_rules ps with e | ⟨ps', k⟩
      · -- early successful return
        have hI := round_rules_inv ps
        rw [hR] at hI
        obtain ⟨hcm, hp2, hc2, e2, hs2⟩ := hI
        have hred : auto_loop m (fuel + 1) ps added = ((true, e.2), e.1) := by
          unfold auto_loop
          rw [if_pos hcond, hR]
        rw [hred]
        exact ⟨by simp [hcm], ⟨e2, hs2⟩, fun hfa => by cases hfa⟩
      · have hI := round_rules_inv ps
        rw [hR] at hI
        obtain ⟨hp2, hc2, ⟨ext, hs2⟩, _, hlen, hz, hf⟩ := hI
        by_cases hk : k = 0
        · subst hk
          have hps' : ps' = ps := hz rfl
          rw [hps'] at hR
          have hred : auto_loop m (fuel + 1) ps added = auto_finish ps := by
            unfold auto_loop
            rw [if_pos hcond, hR]
            simp
          have hfin : auto_finish ps = ((false, "Could not complete proof within the step limit."), ps) := by
            unfold auto_finish
            rw [hic]
            simp
          rw [hred, hfin]
          refine ⟨by simp [hic], ⟨[], by simp⟩, fun _ => Or.inr ?_⟩
          show round_rules ps = .ok (ps, 0)
          exact hR
        · have hred : auto_loop m (fuel + 1) ps added = auto_loop m fuel ps' (added + k) := by
            conv_lhs => unfold auto_loop
            rw [if_pos hcond, hR]
            simp [hk]
          have hIH := ih ps' (added + k) (hf hic) (by omega)
          rw [hred]
          refine ⟨hIH.1, ?_, ?_⟩
          · obtain ⟨e3, hs3⟩ := hIH.2.1
            exact ⟨ext ++ e3, by rw [hs3, hs2, List.append_assoc]⟩
          · intro hfa
            rcases hIH.2.2 hfa with hb | hsat
            · left
              have := congrArg List.length hs2
              simp at this
              omega
            · exact Or.inr hsat
    · have hred : auto_loop m (fuel + 1) ps added = ((false, "Could not complete proof within the step limit."), ps) := by
        unfold auto_loop auto_finish
        rw [if_neg (by simp [hlt]), hic]
        simp
      rw [hred]
      refine ⟨by simp [hic], ⟨[], by simp⟩, fun _ => Or.inl ?_⟩
      show ps.proof_steps.length + added ≥ ps.proof_steps.length + m
      omega

/-- C8 (amended): `auto_prove` only ever appends steps; it reports
success exactly when the final state is complete (stopping as soon as
completion becomes true); on failure the search either saturated (one
further full round over the catalog would add no step) or crossed the
budget at a round boundary — the budget is checked only between rounds,
so a single round may push the number of new steps past `max_steps`. -/
theorem C8_auto_prove_amended (ps : ProofSystem) (m : Nat)
    (hc : ps.conclusion.isSome = true) (hp : ps.premises.isEmpty = false) :
    ((auto_prove ps m).1.1 = true ↔ (auto_prove ps m).2.is_complete = true)
    ∧ (∃ ext, (auto_prove ps m).2.proof_steps = ps.proof_steps ++ ext)
    ∧ ((auto_prove ps m).1.1 = false →
        (auto_prove ps m).2.proof_steps.length ≥ ps.proof_steps.length + m
          ∨ round_rules (auto_prove ps m).2 = .ok ((auto_prove ps m).2, 0)) := by
  rcases hcc : ps.conclusion with _ | c
  · rw [hcc] at hc; simp at hc
  · by_cases hicm : ps.is_complete
    · have hred : auto_prove ps m = ((true, "Proof already complete"), ps) := by
        unfold auto_prove
        rw [hcc, hp]
        simp [hicm]
      rw [hred]
      exact ⟨by simp [hicm], ⟨[], by simp⟩, fun hfa => by cases hfa⟩
    · have hred : auto_prove ps m = auto_loop m (m + 1) ps 0 := by
        unfold auto_prove
        rw [hcc, hp]
        simp [hicm]
      have hI := auto_loop_inv m (m + 1) ps 0 (by simpa using hicm) (by omega)
      rw [hred]
      refine ⟨hI.1, hI.2.1, fun hfa => ?_⟩
      rcases hI.2.2 hfa with hb | hsat
      · exact Or.inl (by omega)
      · exact Or.inr hsat

theorem stop1 {x : Ast} {rest : List Tok} {f : Nat} (h : cont_lvl rest ≠ 1)
    (hf : 1 ≤ f) : parse_iff_loop f x rest = some (x, rest) := by
  obtain ⟨f1, rfl⟩ : ∃ f1, f = f1 + 1 := ⟨f - 1, by omega⟩
  cases rest with
  | nil => rfl
  | cons tk ts => cases tk <;> first | rfl | (exact absurd rfl h)

theorem stop3 {x : Ast} {rest : List Tok} {f : Nat} (h : cont_lvl rest ≠ 3)
    (hf : 1 ≤ f) : parse_or_loop f x rest = some (x, rest) := by
  obtain ⟨f1, rfl⟩ : ∃ f1, f = f1 + 1 := ⟨f - 1, by omega⟩
  cases rest with
  | nil => rfl
  | cons tk ts => cases tk <;> first | rfl | (exact absurd rfl h)

theorem stop4 {x : Ast} {rest : List Tok} {f : Nat} (h : cont_lvl rest ≠ 4)
    (hf : 1 ≤ f) : parse_xor_loop f x rest = some (x, rest) := by
  obtain ⟨f1, rfl⟩ : ∃ f1, f = f1 + 1 := ⟨f - 1, by omega⟩
  cases rest with
  | nil => rfl
  | cons tk ts => cases tk <;> first | rfl | (exact absurd rfl h)

theorem stop5 {x : Ast} {rest : List Tok} {f : Nat} (h : cont_lvl rest ≠ 5)
    (hf : 1 ≤ f) : parse_and_loop f x rest = some (x, rest) := by
  obtain ⟨f1, rfl⟩ : ∃ f1, f = f1 + 1 := ⟨f - 1, by omega⟩
  cases rest with
  | nil => rfl
  | cons tk ts => cases tk <;> first | rfl | (exact absurd rfl h)

/-- After a complete expression, a continuation that is not an
implication arrow leaves `_parse_implies` untouched. -/
theorem imp_head_of_cont {rest : List Tok} (h : cont_lvl rest ≠ 2) :
    ∀ x : Ast, (match rest with
      | Tok.IMPLIES :: _ => (none : Option (Ast × List Tok))
      | _ => some (x, rest)) = some (x, rest) := by
  intro x
  cases rest with
  | nil => rfl
  | cons tk ts => cases tk <;> first | rfl | (exact absurd rfl h)

/-- The printer emits at least one token for every AST. -/
theorem pt_len_pos (t : Ast) : 1 ≤ (ptTok t).length := by
  cases t with
  | PROP c => simp [ptTok]
  | NOT a => simp [ptTok]
  | BIN k l r =>
    simp only [ptTok, List.length_append, List.length_cons]
    omega

/-- `_needs_parentheses` under an `AND/OR/XOR/NAND/NOR` parent is the
precedence comparison `pw` performs. -/
theorem needs_parens_eq_pw (child : Ast) (kd : BKind) (side : Bool)
    (h3 : 3 ≤ prec kd) :
    needs_parens child kd side = decide (lvl_top child < prec kd) := by
  cases child with
  | PROP c => simp [needs_parens, lvl_top]; cases kd <;> simp [prec] at h3 ⊢ <;> omega
  | NOT a => simp [needs_parens, lvl_top]; cases kd <;> simp [prec] at h3 ⊢ <;> omega
  | BIN ck cl cr =>
    have hk : ¬(kd = .IMPLIES ∨ kd = .IFF) := by
      cases kd <;> simp [prec] at h3 ⊢ <;> omega
    simp only [needs_parens, lvl_top, if_neg hk]
    by_cases hlt : prec ck < prec kd
    · simp [hlt]
    · have hni : ¬(kd = BKind.IMPLIES ∧ side = true ∧ prec ck = prec kd) := by
        rintro ⟨rfl, -, -⟩
        simp [prec] at h3
      simp [hlt, hni]

/-- `_needs_parentheses` under `IMPLIES`/`IFF` wraps every binary
child. -/
theorem needs_parens_eq_pw6 (child : Ast) (kd : BKind) (side : Bool)
    (h2 : prec kd ≤ 2) :
    needs_parens child kd side = decide (lvl_top child < 6) := by
  have hk : kd = .IMPLIES ∨ kd = .IFF := by
    cases kd <;> simp [prec] at h2 ⊢
  cases child with
  | PROP c => simp [needs_parens, lvl_top]
  | NOT a => simp [needs_parens, lvl_top]
  | BIN ck cl cr =>
    simp only [needs_parens, lvl_top, if_pos hk]
    cases ck <;> simp [prec]

/-- The printed form of a binary node at precedence 3–5 is the two
`pw`-wrapped operands around the operator token. -/
theorem pt_bin_345 (kd : BKind) (l r : Ast) (h3 : 3 ≤ prec kd) :
    ptTok (.BIN kd l r)
      = pw (prec kd) l ++ ptTok.op_tok kd :: pw (prec kd) r := by
  simp only [ptTok, pw, needs_parens_eq_pw l kd true h3,
    needs_parens_eq_pw r kd false h3]
  by_cases h1 : lvl_top l < prec kd <;> by_cases h2 : lvl_top r < prec kd <;>
    simp [h1, h2]

/-- The printed form of an `IMPLIES`/`IFF` node wraps both binary
operands. -/
theorem pt_bin_12 (kd : BKind) (l r : Ast) (h2 : prec kd ≤ 2) :
    ptTok (.BIN kd l r) = pw 6 l ++ ptTok.op_tok kd :: pw 6 r := by
  simp only [ptTok, pw, needs_parens_eq_pw6 l kd true h2,
    needs_parens_eq_pw6 r kd false h2]
  by_cases ha : lvl_top l < 6 <;> by_cases hb : lvl_top r < 6 <;>
    simp [ha, hb]

theorem spine_fold (k : Nat) :
    ∀ t : Ast, ((spine_at k t).2).foldl (fun a p => Ast.BIN p.1 a p.2)
      (spine_at k t).1 = t := by
  intro t
  induction t with
  | PROP c => simp [spine_at]
  | NOT a ih => simp [spine_at]
  | BIN kd l r ihl ihr =>
    by_cases h : prec kd = k
    · simp only [spine_at, if_pos h, List.foldl_append, List.foldl_cons,
        List.foldl_nil]
      rw [ihl]
    · simp [spine_at, h]

theorem spine_at_of_ne {k : Nat} {t : Ast} (h : lvl_top t ≠ k) :
    spine_at k t = (t, []) := by
  cases t with
  | PROP c => rfl
  | NOT a => rfl
  | BIN kd l r =>
    simp only [lvl_top] at h
    simp [spine_at, h]

theorem chain_toks_append (k : Nat) (xs ys : List (BKind × Ast)) :
    chain_toks k (xs ++ ys) = chain_toks k xs ++ chain_toks k ys := by
  simp [chain_toks]

/-- All the facts about the level-`k` left spine of a good tree whose
top operator binds at level `k`. -/
theorem spine_props (k : Nat) (hk3 : 3 ≤ k) (hk5 : k ≤ 5) :
    ∀ t : Ast, good t = true → lvl_top t = k →
      good (spine_at k t).1 = true
      ∧ lvl_top (spine_at k t).1 ≠ k
      ∧ sizeOf (spine_at k t).1 < sizeOf t
      ∧ (spine_at k t).2 ≠ []
      ∧ (∀ p ∈ (spine_at k t).2,
          prec p.1 = k ∧ good p.2 = true ∧ lvl_top p.2 ≠ k ∧ sizeOf p.2 < sizeOf t)
      ∧ ptTok t = pw k (spine_at k t).1 ++ chain_toks k (spine_at k t).2 := by
  intro t
  induction t with
  | PROP c => intro _ hl; simp [lvl_top] at hl; omega
  | NOT a ih => intro _ hl; simp [lvl_top] at hl; omega
  | BIN kd l r ihl ihr =>
    intro hg hl
    simp only [lvl_top] at hl
    have hgl : good l = true := by
      simp only [good, Bool.and_eq_true] at hg
      exact hg.1.1
    have hgr : good r = true := by
      simp only [good, Bool.and_eq_true] at hg
      exact hg.1.2
    have hrne : lvl_top r ≠ prec kd := by
      simp only [good, Bool.and_eq_true, Bool.or_eq_true, decide_eq_true_eq] at hg
      rcases hg.2 with h | h
      · omega
      · exact h
    have hsp : spine_at k (.BIN kd l r)
        = ((spine_at k l).1, (spine_at k l).2 ++ [(kd, r)]) := by
      simp [spine_at, hl]
    by_cases hll : lvl_top l = k
    · obtain ⟨g1, g2, g3, g4, g5, g6⟩ := ihl hgl hll
      rw [hsp]
      refine ⟨g1, g2, ?_, by simp, ?_, ?_⟩
      · simp only [Ast.BIN.sizeOf_spec]
        omega
      · intro p hp
        rw [List.mem_append] at hp
        rcases hp with hp | hp
        · obtain ⟨a1, a2, a3, a4⟩ := g5 p hp
          exact ⟨a1, a2, a3, by simp only [Ast.BIN.sizeOf_spec]; omega⟩
        · simp at hp
          subst hp
          refine ⟨hl, hgr, by show lvl_top r ≠ k; rw [← hl]; exact hrne, ?_⟩
          simp only [Ast.BIN.sizeOf_spec]
          omega
      · rw [pt_bin_345 kd l r (by omega), hl]
        have hpwl : pw k l = ptTok l := by
          simp [pw, hll]
        rw [hpwl, g6, chain_toks_append]
        simp [chain_toks]
    · rw [hsp, spine_at_of_ne hll]
      refine ⟨hgl, hll, ?_, by simp, ?_, ?_⟩
      · simp only [Ast.BIN.sizeOf_spec]
        omega
      · intro p hp
        simp at hp
        subst hp
        refine ⟨hl, hgr, by show lvl_top r ≠ k; rw [← hl]; exact hrne, ?_⟩
        simp only [Ast.BIN.sizeOf_spec]
        omega
      · rw [pt_bin_345 kd l r (by omega), hl]
        simp [chain_toks]

end GPLC

namespace GPLC

/-- Witness for C8 (amended) at the spec's failure scenario: premise
`A`, conclusion `B`, budget 5. -/
theorem C8_auto_prove_amended_witness :
    ((auto_prove scenario_fail_state 5).1.1 = true
        ↔ (auto_prove scenario_fail_state 5).2.is_complete = true)
    ∧ (∃ ext, (auto_prove scenario_fail_state 5).2.proof_steps
        = scenario_fail_state.proof_steps ++ ext)
    ∧ ((auto_prove scenario_fail_state 5).1.1 = false →
        (auto_prove scenario_fail_state 5).2.proof_steps.length
            ≥ scenario_fail_state.proof_steps.length + 5
          ∨ round_rules (auto_prove scenario_fail_state 5).2
              = .ok ((auto_prove scenario_fail_state 5).2, 0)) :=
  C8_auto_prove_amended scenario_fail_state 5 (by rfl) (by rfl)


/-- The operator token of a binary kind continues a parse at exactly its
precedence level. -/
theorem cont_op (kd : BKind) (ts : List Tok) :
    cont_lvl (ptTok.op_tok kd :: ts) = prec kd := by
  cases kd <;> rfl

/-- A chain of level-`k` operator/operand pairs followed by a
continuation at level at most `k` still continues at level at most
`k`. -/
theorem cont_chain_le {k : Nat} (ops : List (BKind × Ast)) (rest : List Tok)
    (hops : ∀ p ∈ ops, prec p.1 = k) (hr : cont_lvl rest ≤ k) :
    cont_lvl (chain_toks k ops ++ rest) ≤ k := by
  cases ops with
  | nil => simpa [chain_toks] using hr
  | cons p ops =>
    obtain ⟨kd, u⟩ := p
    have h : prec kd = k := hops (kd, u) (List.mem_cons_self _ _)
    have e : chain_toks k ((kd, u) :: ops) ++ rest
        = ptTok.op_tok kd :: (pw k u ++ (chain_toks k ops ++ rest)) := by
      simp [chain_toks]
    rw [e, cont_op]
    omega

/-- The `while` loop of `_parse_and` folds a printed level-5 chain back
left-associatively, provided each operand parses as printed. -/
theorem loop5 (ops : List (BKind × Ast)) :
    ∀ (acc : Ast) (rest : List Tok) (f : Nat),
      (∀ p ∈ ops, prec p.1 = 5 ∧
        ∀ rest2 f2, 8 * (pw 5 p.2).length + 3 ≤ f2 →
          parse_not f2 (pw 5 p.2 ++ rest2) = some (p.2, rest2)) →
      cont_lvl rest ≠ 5 → 8 * (chain_toks 5 ops).length + 1 ≤ f →
      parse_and_loop f acc (chain_toks 5 ops ++ rest)
        = some (ops.foldl (fun a p => Ast.BIN p.1 a p.2) acc, rest) := by
  induction ops with
  | nil =>
    intro acc rest f _ hc hf
    simp only [chain_toks, List.map_nil, List.flatten_nil, List.nil_append,
      List.foldl_nil]
    exact stop5 hc (by omega)
  | cons p ops ih =>
    obtain ⟨kd, u⟩ := p
    intro acc rest f hall hc hf
    obtain ⟨hpk0, hu0⟩ := hall (kd, u) (List.mem_cons_self _ _)
    have hpk : prec kd = 5 := hpk0
    have hu : ∀ rest2 f2, 8 * (pw 5 u).length + 3 ≤ f2 →
        parse_not f2 (pw 5 u ++ rest2) = some (u, rest2) := hu0
    have hops := fun q hq => hall q (List.mem_cons_of_mem _ hq)
    have hct : chain_toks 5 ((kd, u) :: ops)
        = ptTok.op_tok kd :: (pw 5 u ++ chain_toks 5 ops) := by
      simp [chain_toks]
    have hlen : (chain_toks 5 ((kd, u) :: ops)).length
        = 1 + (pw 5 u).length + (chain_toks 5 ops).length := by
      rw [hct]
      simp
      omega
    obtain ⟨f1, rfl⟩ : ∃ f1, f = f1 + 1 := ⟨f - 1, by omega⟩
    rw [hct]
    simp only [List.cons_append, List.append_assoc]
    cases kd with
    | AND =>
      show (match parse_not f1 (pw 5 u ++ (chain_toks 5 ops ++ rest)) with
        | none => none
        | some (r, ts2) => parse_and_loop f1 (Ast.BIN .AND acc r) ts2) = _
      rw [hu (chain_toks 5 ops ++ rest) f1 (by omega)]
      exact ih (.BIN .AND acc u) rest f1 hops hc (by omega)
    | NAND =>
      show (match parse_not f1 (pw 5 u ++ (chain_toks 5 ops ++ rest)) with
        | none => none
        | some (r, ts2) => parse_and_loop f1 (Ast.BIN .NAND acc r) ts2) = _
      rw [hu (chain_toks 5 ops ++ rest) f1 (by omega)]
      exact ih (.BIN .NAND acc u) rest f1 hops hc (by omega)
    | OR => simp [prec] at hpk
    | NOR => simp [prec] at hpk
    | XOR => simp [prec] at hpk
    | IMPLIES => simp [prec] at hpk
    | IFF => simp [prec] at hpk

/-- The `while` loop of `_parse_xor` folds a printed level-4 chain back
left-associatively. -/
theorem loop4 (ops : List (BKind × Ast)) :
    ∀ (acc : Ast) (rest : List Tok) (f : Nat),
      (∀ p ∈ ops, prec p.1 = 4 ∧
        ∀ rest2 f2, cont_lvl rest2 < 5 → 8 * (pw 4 p.2).length + 4 ≤ f2 →
          parse_and f2 (pw 4 p.2 ++ rest2) = some (p.2, rest2)) →
      cont_lvl rest < 4 → 8 * (chain_toks 4 ops).length + 1 ≤ f →
      parse_xor_loop f acc (chain_toks 4 ops ++ rest)
        = some (ops.foldl (fun a p => Ast.BIN p.1 a p.2) acc, rest) := by
  induction ops with
  | nil =>
    intro acc rest f _ hc hf
    simp only [chain_toks, List.map_nil, List.flatten_nil, List.nil_append,
      List.foldl_nil]
    exact stop4 (by omega) (by omega)
  | cons p ops ih =>
    obtain ⟨kd, u⟩ := p
    intro acc rest f hall hc hf
    obtain ⟨hpk0, hu0⟩ := hall (kd, u) (List.mem_cons_self _ _)
    have hpk : prec kd = 4 := hpk0
    have hu : ∀ rest2 f2, cont_lvl rest2 < 5 → 8 * (pw 4 u).length + 4 ≤ f2 →
        parse_and f2 (pw 4 u ++ rest2) = some (u, rest2) := hu0
    have hops := fun q hq => hall q (List.mem_cons_of_mem _ hq)
    have hct : chain_toks 4 ((kd, u) :: ops)
        = ptTok.op_tok kd :: (pw 4 u ++ chain_toks 4 ops) := by
      simp [chain_toks]
    have hlen : (chain_toks 4 ((kd, u) :: ops)).length
        = 1 + (pw 4 u).length + (chain_toks 4 ops).length := by
      rw [hct]
      simp
      omega
    have hcont : cont_lvl (chain_toks 4 ops ++ rest) < 5 := by
      have := cont_chain_le ops rest (fun q hq => (hops q hq).1) (by omega)
      omega
    obtain ⟨f1, rfl⟩ : ∃ f1, f = f1 + 1 := ⟨f - 1, by omega⟩
    rw [hct]
    simp only [List.cons_append, List.append_assoc]
    cases kd with
    | XOR =>
      show (match parse_and f1 (pw 4 u ++ (chain_toks 4 ops ++ rest)) with
        | none => none
        | some (r, ts2) => parse_xor_loop f1 (Ast.BIN .XOR acc r) ts2) = _
      rw [hu (chain_toks 4 ops ++ rest) f1 hcont (by omega)]
      exact ih (.BIN .XOR acc u) rest f1 hops hc (by omega)
    | AND => simp [prec] at hpk
    | NAND => simp [prec] at hpk
    | OR => simp [prec] at hpk
    | NOR => simp [prec] at hpk
    | IMPLIES => simp [prec] at hpk
    | IFF => simp [prec] at hpk

/-- The `while` loop of `_parse_or` folds a printed level-3 chain back
left-associatively. -/
theorem loop3 (ops : List (BKind × Ast)) :
    ∀ (acc : Ast) (rest : List Tok) (f : Nat),
      (∀ p ∈ ops, prec p.1 = 3 ∧
        ∀ rest2 f2, cont_lvl rest2 < 4 → 8 * (pw 3 p.2).length + 5 ≤ f2 →
          parse_xor f2 (pw 3 p.2 ++ rest2) = some (p.2, rest2)) →
      cont_lvl rest < 3 → 8 * (chain_toks 3 ops).length + 1 ≤ f →
      parse_or_loop f acc (chain_toks 3 ops ++ rest)
        = some (ops.foldl (fun a p => Ast.BIN p.1 a p.2) acc, rest) := by
  induction ops with
  | nil =>
    intro acc rest f _ hc hf
    simp only [chain_toks, List.map_nil, List.flatten_nil, List.nil_append,
      List.foldl_nil]
    exact stop3 (by omega) (by omega)
  | cons p ops ih =>
    obtain ⟨kd, u⟩ := p
    intro acc rest f hall hc hf
    obtain ⟨hpk0, hu0⟩ := hall (kd, u) (List.mem_cons_self _ _)
    have hpk : prec kd = 3 := hpk0
    have hu : ∀ rest2 f2, cont_lvl rest2 < 4 → 8 * (pw 3 u).length + 5 ≤ f2 →
        parse_xor f2 (pw 3 u ++ rest2) = some (u, rest2) := hu0
    have hops := fun q hq => hall q (List.mem_cons_of_mem _ hq)
    have hct : chain_toks 3 ((kd, u) :: ops)
        = ptTok.op_tok kd :: (pw 3 u ++ chain_toks 3 ops) := by
      simp [chain_toks]
    have hlen : (chain_toks 3 ((kd, u) :: ops)).length
        = 1 + (pw 3 u).length + (chain_toks 3 ops).length := by
      rw [hct]
      simp
      omega
    have hcont : cont_lvl (chain_toks 3 ops ++ rest) < 4 := by
      have := cont_chain_le ops rest (fun q hq => (hops q hq).1) (by omega)
      omega
    obtain ⟨f1, rfl⟩ : ∃ f1, f = f1 + 1 := ⟨f - 1, by omega⟩
    rw [hct]
    simp only [List.cons_append, List.append_assoc]
    cases kd with
    | OR =>
      show (match parse_xor f1 (pw 3 u ++ (chain_toks 3 ops ++ rest)) with
        | none => none
        | some (r, ts2) => parse_or_loop f1 (Ast.BIN .OR acc r) ts2) = _
      rw [hu (chain_toks 3 ops ++ rest) f1 hcont (by omega)]
      exact ih (.BIN .OR acc u) rest f1 hops hc (by omega)
    | NOR =>
      show (match parse_xor f1 (pw 3 u ++ (chain_toks 3 ops ++ rest)) with
        | none => none
        | some (r, ts2) => parse_or_loop f1 (Ast.BIN .NOR acc r) ts2) = _
      rw [hu (chain_toks 3 ops ++ rest) f1 hcont (by omega)]
      exact ih (.BIN .NOR acc u) rest f1 hops hc (by omega)
    | AND => simp [prec] at hpk
    | NAND => simp [prec] at hpk
    | XOR => simp [prec] at hpk
    | IMPLIES => simp [prec] at hpk
    | IFF => simp [prec] at hpk


/-- Every node parses at a level between `IFF` (1) and atoms (6). -/
theorem lvl_top_le (t : Ast) : lvl_top t ≤ 6 ∧ 1 ≤ lvl_top t := by
  cases t with
  | PROP c => simp [lvl_top]
  | NOT a => simp [lvl_top]
  | BIN kd l r => cases kd <;> simp [lvl_top, prec]

/-- A parenthesised printed form is an atom for `_parse_atom`. -/
theorem mk_wr7 {t : Ast}
    (h1 : ∀ rest f, cont_lvl rest = 0 → 8 * (ptTok t).length + 8 ≤ f →
      parse_iff f (ptTok t ++ rest) = some (t, rest)) :
    ∀ rest f, 8 * (ptTok t).length + 9 ≤ f →
      parse_atom f (.LPAREN :: (ptTok t ++ .RPAREN :: rest)) = some (t, rest) := by
  intro rest f hf
  obtain ⟨f1, rfl⟩ : ∃ f1, f = f1 + 1 := ⟨f - 1, by omega⟩
  have h := h1 (Tok.RPAREN :: rest) f1 rfl (by omega)
  show (match parse_iff f1 (ptTok t ++ Tok.RPAREN :: rest) with
    | some (a, Tok.RPAREN :: rest2) => some (a, rest2)
    | _ => none) = some (t, rest)
  rw [h]

/-- A parenthesised printed form passes unchanged through
`_parse_not`. -/
theorem mk_wr6 {t : Ast}
    (w7 : ∀ rest f, 8 * (ptTok t).length + 9 ≤ f →
      parse_atom f (.LPAREN :: (ptTok t ++ .RPAREN :: rest)) = some (t, rest)) :
    ∀ rest f, 8 * (ptTok t).length + 10 ≤ f →
      parse_not f (.LPAREN :: (ptTok t ++ .RPAREN :: rest)) = some (t, rest) := by
  intro rest f hf
  obtain ⟨f1, rfl⟩ : ∃ f1, f = f1 + 1 := ⟨f - 1, by omega⟩
  show parse_atom f1 (.LPAREN :: (ptTok t ++ .RPAREN :: rest)) = some (t, rest)
  exact w7 rest f1 (by omega)

/-- A parenthesised printed form passes unchanged through
`_parse_and` when the continuation is not a conjunction. -/
theorem mk_wr5 {t : Ast}
    (w6 : ∀ rest f, 8 * (ptTok t).length + 10 ≤ f →
      parse_not f (.LPAREN :: (ptTok t ++ .RPAREN :: rest)) = some (t, rest)) :
    ∀ rest f, cont_lvl rest ≠ 5 → 8 * (ptTok t).length + 11 ≤ f →
      parse_and f (.LPAREN :: (ptTok t ++ .RPAREN :: rest)) = some (t, rest) := by
  intro rest f hc hf
  obtain ⟨f1, rfl⟩ : ∃ f1, f = f1 + 1 := ⟨f - 1, by omega⟩
  show (match parse_not f1 (.LPAREN :: (ptTok t ++ .RPAREN :: rest)) with
    | none => none
    | some (l, ts2) => parse_and_loop f1 l ts2) = some (t, rest)
  rw [w6 rest f1 (by omega)]
  exact stop5 hc (by omega)

/-- A parenthesised printed form passes unchanged through
`_parse_xor`. -/
theorem mk_wr4 {t : Ast}
    (w5 : ∀ rest f, cont_lvl rest ≠ 5 → 8 * (ptTok t).length + 11 ≤ f →
      parse_and f (.LPAREN :: (ptTok t ++ .RPAREN :: rest)) = some (t, rest)) :
    ∀ rest f, cont_lvl rest < 4 → 8 * (ptTok t).length + 12 ≤ f →
      parse_xor f (.LPAREN :: (ptTok t ++ .RPAREN :: rest)) = some (t, rest) := by
  intro rest f hc hf
  obtain ⟨f1, rfl⟩ : ∃ f1, f = f1 + 1 := ⟨f - 1, by omega⟩
  show (match parse_and f1 (.LPAREN :: (ptTok t ++ .RPAREN :: rest)) with
    | none => none
    | some (l, ts2) => parse_xor_loop f1 l ts2) = some (t, rest)
  rw [w5 rest f1 (by omega) (by omega)]
  exact stop4 (by omega) (by omega)

/-- A parenthesised printed form passes unchanged through
`_parse_or`. -/
theorem mk_wr3 {t : Ast}
    (w4 : ∀ rest f, cont_lvl rest < 4 → 8 * (ptTok t).length + 12 ≤ f →
      parse_xor f (.LPAREN :: (ptTok t ++ .RPAREN :: rest)) = some (t, rest)) :
    ∀ rest f, cont_lvl rest < 3 → 8 * (ptTok t).length + 13 ≤ f →
      parse_or f (.LPAREN :: (ptTok t ++ .RPAREN :: rest)) = some (t, rest) := by
  intro rest f hc hf
  obtain ⟨f1, rfl⟩ : ∃ f1, f = f1 + 1 := ⟨f - 1, by omega⟩
  show (match parse_xor f1 (.LPAREN :: (ptTok t ++ .RPAREN :: rest)) with
    | none => none
    | some (l, ts2) => parse_or_loop f1 l ts2) = some (t, rest)
  rw [w4 rest f1 (by omega) (by omega)]
  exact stop3 (by omega) (by omega)

/-- A parenthesised printed form passes unchanged through
`_parse_implies`. -/
theorem mk_wr2 {t : Ast}
    (w3 : ∀ rest f, cont_lvl rest < 3 → 8 * (ptTok t).length + 13 ≤ f →
      parse_or f (.LPAREN :: (ptTok t ++ .RPAREN :: rest)) = some (t, rest)) :
    ∀ rest f, cont_lvl rest < 2 → 8 * (ptTok t).length + 14 ≤ f →
      parse_implies f (.LPAREN :: (ptTok t ++ .RPAREN :: rest)) = some (t, rest) := by
  intro rest f hc hf
  obtain ⟨f1, rfl⟩ : ∃ f1, f = f1 + 1 := ⟨f - 1, by omega⟩
  show (match parse_or f1 (.LPAREN :: (ptTok t ++ .RPAREN :: rest)) with
    | none => none
    | some (l, ts2) =>
      match ts2 with
      | Tok.IMPLIES :: ts3 =>
        (match parse_implies f1 ts3 with
          | none => none
          | some (r, rest2) => some (Ast.BIN .IMPLIES l r, rest2))
      | _ => some (l, ts2)) = some (t, rest)
  rw [w3 rest f1 (by omega) (by omega)]
  cases rest with
  | nil => rfl
  | cons tk ts => cases tk <;> first | rfl | (simp [cont_lvl] at hc)

/-- The level-5 operand form the printer emits parses back through
`_parse_not`. -/
theorem mk_wat5 {t : Ast}
    (m6 : lvl_top t = 6 → ∀ rest f, 8 * (ptTok t).length + 3 ≤ f →
      parse_not f (ptTok t ++ rest) = some (t, rest))
    (w6 : ∀ rest f, 8 * (ptTok t).length + 10 ≤ f →
      parse_not f (.LPAREN :: (ptTok t ++ .RPAREN :: rest)) = some (t, rest)) :
    lvl_top t ≠ 5 → ∀ rest f, 8 * (pw 5 t).length + 3 ≤ f →
      parse_not f (pw 5 t ++ rest) = some (t, rest) := by
  intro hne rest f hf
  by_cases h : lvl_top t < 5
  · have hpw : pw 5 t = Tok.LPAREN :: (ptTok t ++ [Tok.RPAREN]) := by
      simp [pw, h]
    rw [hpw] at hf ⊢
    have e : (Tok.LPAREN :: (ptTok t ++ [Tok.RPAREN])) ++ rest
        = Tok.LPAREN :: (ptTok t ++ Tok.RPAREN :: rest) := by simp
    rw [e]
    apply w6
    simp only [List.length_cons, List.length_append] at hf
    omega
  · have h6 : lvl_top t = 6 := by
      have := lvl_top_le t
      omega
    have hpw : pw 5 t = ptTok t := by simp [pw, h]
    rw [hpw] at hf ⊢
    exact m6 h6 rest f hf

/-- The level-4 operand form parses back through `_parse_and`. -/
theorem mk_wat4 {t : Ast}
    (m5 : 5 ≤ lvl_top t → ∀ rest f, cont_lvl rest < 5 →
      8 * (ptTok t).length + 4 ≤ f →
      parse_and f (ptTok t ++ rest) = some (t, rest))
    (w5 : ∀ rest f, cont_lvl rest ≠ 5 → 8 * (ptTok t).length + 11 ≤ f →
      parse_and f (.LPAREN :: (ptTok t ++ .RPAREN :: rest)) = some (t, rest)) :
    lvl_top t ≠ 4 → ∀ rest f, cont_lvl rest < 5 →
      8 * (pw 4 t).length + 4 ≤ f →
      parse_and f (pw 4 t ++ rest) = some (t, rest) := by
  intro hne rest f hc hf
  by_cases h : lvl_top t < 4
  · have hpw : pw 4 t = Tok.LPAREN :: (ptTok t ++ [Tok.RPAREN]) := by
      simp [pw, h]
    rw [hpw] at hf ⊢
    have e : (Tok.LPAREN :: (ptTok t ++ [Tok.RPAREN])) ++ rest
        = Tok.LPAREN :: (ptTok t ++ Tok.RPAREN :: rest) := by simp
    rw [e]
    apply w5 rest f (by omega)
    simp only [List.length_cons, List.length_append] at hf
    omega
  · have h5 : 5 ≤ lvl_top t := by omega
    have hpw : pw 4 t = ptTok t := by simp [pw, h]
    rw [hpw] at hf ⊢
    exact m5 h5 rest f hc hf

/-- The level-3 operand form parses back through `_parse_xor`. -/
theorem mk_wat3 {t : Ast}
    (m4 : 4 ≤ lvl_top t → ∀ rest f, cont_lvl rest < 4 →
      8 * (ptTok t).length + 5 ≤ f →
      parse_xor f (ptTok t ++ rest) = some (t, rest))
    (w4 : ∀ rest f, cont_lvl rest < 4 → 8 * (ptTok t).length + 12 ≤ f →
      parse_xor f (.LPAREN :: (ptTok t ++ .RPAREN :: rest)) = some (t, rest)) :
    lvl_top t ≠ 3 → ∀ rest f, cont_lvl rest < 4 →
      8 * (pw 3 t).length + 5 ≤ f →
      parse_xor f (pw 3 t ++ rest) = some (t, rest) := by
  intro hne rest f hc hf
  by_cases h : lvl_top t < 3
  · have hpw : pw 3 t = Tok.LPAREN :: (ptTok t ++ [Tok.RPAREN]) := by
      simp [pw, h]
    rw [hpw] at hf ⊢
    have e : (Tok.LPAREN :: (ptTok t ++ [Tok.RPAREN])) ++ rest
        = Tok.LPAREN :: (ptTok t ++ Tok.RPAREN :: rest) := by simp
    rw [e]
    apply w4 rest f hc
    simp only [List.length_cons, List.length_append] at hf
    omega
  · have h4 : 4 ≤ lvl_top t := by omega
    have hpw : pw 3 t = ptTok t := by simp [pw, h]
    rw [hpw] at hf ⊢
    exact m4 h4 rest f hc hf

/-- The operand form under `IMPLIES`/`IFF` parses back through
`_parse_or`. -/
theorem mk_wat2or {t : Ast}
    (m3 : 3 ≤ lvl_top t → ∀ rest f, cont_lvl rest < 3 →
      8 * (ptTok t).length + 6 ≤ f →
      parse_or f (ptTok t ++ rest) = some (t, rest))
    (w3 : ∀ rest f, cont_lvl rest < 3 → 8 * (ptTok t).length + 13 ≤ f →
      parse_or f (.LPAREN :: (ptTok t ++ .RPAREN :: rest)) = some (t, rest)) :
    ∀ rest f, cont_lvl rest < 3 → 8 * (pw 6 t).length + 6 ≤ f →
      parse_or f (pw 6 t ++ rest) = some (t, rest) := by
  intro rest f hc hf
  by_cases h : lvl_top t < 6
  · have hpw : pw 6 t = Tok.LPAREN :: (ptTok t ++ [Tok.RPAREN]) := by
      simp [pw, h]
    rw [hpw] at hf ⊢
    have e : (Tok.LPAREN :: (ptTok t ++ [Tok.RPAREN])) ++ rest
        = Tok.LPAREN :: (ptTok t ++ Tok.RPAREN :: rest) := by simp
    rw [e]
    apply w3 rest f hc
    simp only [List.length_cons, List.length_append] at hf
    omega
  · have h6 : 3 ≤ lvl_top t := by omega
    have hpw : pw 6 t = ptTok t := by simp [pw, h]
    rw [hpw] at hf ⊢
    exact m3 h6 rest f hc hf

/-- The operand form under `IMPLIES`/`IFF` parses back through
`_parse_implies`. -/
theorem mk_wat2 {t : Ast}
    (m2 : 2 ≤ lvl_top t → ∀ rest f, cont_lvl rest < 2 →
      8 * (ptTok t).length + 7 ≤ f →
      parse_implies f (ptTok t ++ rest) = some (t, rest))
    (w2 : ∀ rest f, cont_lvl rest < 2 → 8 * (ptTok t).length + 14 ≤ f →
      parse_implies f (.LPAREN :: (ptTok t ++ .RPAREN :: rest)) = some (t, rest)) :
    ∀ rest f, cont_lvl rest < 2 → 8 * (pw 6 t).length + 7 ≤ f →
      parse_implies f (pw 6 t ++ rest) = some (t, rest) := by
  intro rest f hc hf
  by_cases h : lvl_top t < 6
  · have hpw : pw 6 t = Tok.LPAREN :: (ptTok t ++ [Tok.RPAREN]) := by
      simp [pw, h]
    rw [hpw] at hf ⊢
    have e : (Tok.LPAREN :: (ptTok t ++ [Tok.RPAREN])) ++ rest
        = Tok.LPAREN :: (ptTok t ++ Tok.RPAREN :: rest) := by simp
    rw [e]
    apply w2 rest f hc
    simp only [List.length_cons, List.length_append] at hf
    omega
  · have h2 : 2 ≤ lvl_top t := by omega
    have hpw : pw 6 t = ptTok t := by simp [pw, h]
    rw [hpw] at hf ⊢
    exact m2 h2 rest f hc hf


/-- A good printed atom/negation parses back through `_parse_not`. -/
theorem mk_m6 {t : Ast} (hg : good t = true)
    (hsub : ∀ s : Ast, sizeOf s < sizeOf t → good s = true → ParserFacts s) :
    lvl_top t = 6 → ∀ rest f, 8 * (ptTok t).length + 3 ≤ f →
      parse_not f (ptTok t ++ rest) = some (t, rest) := by
  intro h6 rest f hf
  cases t with
  | PROP c =>
    obtain ⟨f2, rfl⟩ : ∃ f2, f = f2 + 2 := ⟨f - 2, by omega⟩
    show parse_not (f2 + 2) (Tok.PROP c :: rest) = some (Ast.PROP c, rest)
    rfl
  | NOT a =>
    have hga : good a = true := by simpa [good] using hg
    have hfa := hsub a (by simp only [Ast.NOT.sizeOf_spec]; omega) hga
    obtain ⟨f1, rfl⟩ : ∃ f1, f = f1 + 1 := ⟨f - 1, by omega⟩
    by_cases ha : is_atomic_or_not a = true
    · have hpt : ptTok (.NOT a) = Tok.NOT :: ptTok a := by simp [ptTok, ha]
      have h6a : lvl_top a = 6 := by
        cases a with
        | PROP c => rfl
        | NOT b => rfl
        | BIN k l r => simp [is_atomic_or_not] at ha
      rw [hpt] at hf ⊢
      show (match parse_not f1 (ptTok a ++ rest) with
        | none => none
        | some (b, rest2) => some (Ast.NOT b, rest2)) = some (Ast.NOT a, rest)
      rw [hfa.m6 h6a rest f1 (by simp only [List.length_cons] at hf; omega)]
    · have hpt : ptTok (.NOT a)
          = Tok.NOT :: (Tok.LPAREN :: (ptTok a ++ [Tok.RPAREN])) := by
        simp [ptTok, ha]
      rw [hpt] at hf ⊢
      show (match parse_not f1 (Tok.LPAREN :: ((ptTok a ++ [Tok.RPAREN]) ++ rest)) with
        | none => none
        | some (b, rest2) => some (Ast.NOT b, rest2)) = some (Ast.NOT a, rest)
      rw [show (ptTok a ++ [Tok.RPAREN]) ++ rest = ptTok a ++ Tok.RPAREN :: rest by simp]
      rw [hfa.wr6 rest f1
        (by simp only [List.length_cons, List.length_append] at hf; omega)]
  | BIN kd l r =>
    simp only [lvl_top] at h6
    cases kd <;> simp [prec] at h6

/-- A good printed form at level 5 or above parses back through
`_parse_and`. -/
theorem mk_m5 {t : Ast} (hg : good t = true)
    (m6 : lvl_top t = 6 → ∀ rest f, 8 * (ptTok t).length + 3 ≤ f →
      parse_not f (ptTok t ++ rest) = some (t, rest))
    (hsub : ∀ s : Ast, sizeOf s < sizeOf t → good s = true → ParserFacts s) :
    5 ≤ lvl_top t → ∀ rest f, cont_lvl rest < 5 →
      8 * (ptTok t).length + 4 ≤ f →
      parse_and f (ptTok t ++ rest) = some (t, rest) := by
  intro hL rest f hc hf
  obtain ⟨f1, rfl⟩ : ∃ f1, f = f1 + 1 := ⟨f - 1, by omega⟩
  show (match parse_not f1 (ptTok t ++ rest) with
    | none => none
    | some (l, ts2) => parse_and_loop f1 l ts2) = some (t, rest)
  by_cases h6 : lvl_top t = 6
  · rw [m6 h6 rest f1 (by omega)]
    exact stop5 (by omega) (by omega)
  · have hL5 : lvl_top t = 5 := by
      have := lvl_top_le t
      omega
    obtain ⟨g1, g2, g3, g4, g5, g6⟩ := spine_props 5 (by norm_num) (by norm_num) t hg hL5
    have hlen : (ptTok t).length
        = (pw 5 (spine_at 5 t).1).length + (chain_toks 5 (spine_at 5 t).2).length := by
      rw [g6]
      simp
    have hhead := (hsub _ g3 g1).wat5 g2 (chain_toks 5 (spine_at 5 t).2 ++ rest) f1
      (by omega)
    have hloop := loop5 (spine_at 5 t).2 (spine_at 5 t).1 rest f1
      (fun p hp => by
        obtain ⟨a1, a2, a3, a4⟩ := g5 p hp
        exact ⟨a1, (hsub _ a4 a2).wat5 a3⟩)
      (by omega) (by omega)
    rw [g6, List.append_assoc, hhead]
    show parse_and_loop f1 (spine_at 5 t).1 (chain_toks 5 (spine_at 5 t).2 ++ rest)
      = some (t, rest)
    rw [hloop, spine_fold 5 t]

/-- A good printed form at level 4 or above parses back through
`_parse_xor`. -/
theorem mk_m4 {t : Ast} (hg : good t = true)
    (m5 : 5 ≤ lvl_top t → ∀ rest f, cont_lvl rest < 5 →
      8 * (ptTok t).length + 4 ≤ f →
      parse_and f (ptTok t ++ rest) = some (t, rest))
    (hsub : ∀ s : Ast, sizeOf s < sizeOf t → good s = true → ParserFacts s) :
    4 ≤ lvl_top t → ∀ rest f, cont_lvl rest < 4 →
      8 * (ptTok t).length + 5 ≤ f →
      parse_xor f (ptTok t ++ rest) = some (t, rest) := by
  intro hL rest f hc hf
  obtain ⟨f1, rfl⟩ : ∃ f1, f = f1 + 1 := ⟨f - 1, by omega⟩
  show (match parse_and f1 (ptTok t ++ rest) with
    | none => none
    | some (l, ts2) => parse_xor_loop f1 l ts2) = some (t, rest)
  by_cases h5 : 5 ≤ lvl_top t
  · rw [m5 h5 rest f1 (by omega) (by omega)]
    exact stop4 (by omega) (by omega)
  · have hL4 : lvl_top t = 4 := by omega
    obtain ⟨g1, g2, g3, g4, g5, g6⟩ := spine_props 4 (by norm_num) (by norm_num) t hg hL4
    have hlen : (ptTok t).length
        = (pw 4 (spine_at 4 t).1).length + (chain_toks 4 (spine_at 4 t).2).length := by
      rw [g6]
      simp
    have hcont : cont_lvl (chain_toks 4 (spine_at 4 t).2 ++ rest) < 5 := by
      have := cont_chain_le (spine_at 4 t).2 rest (fun q hq => (g5 q hq).1) (by omega)
      omega
    have hhead := (hsub _ g3 g1).wat4 g2 (chain_toks 4 (spine_at 4 t).2 ++ rest) f1
      hcont (by omega)
    have hloop := loop4 (spine_at 4 t).2 (spine_at 4 t).1 rest f1
      (fun p hp => by
        obtain ⟨a1, a2, a3, a4⟩ := g5 p hp
        exact ⟨a1, (hsub _ a4 a2).wat4 a3⟩)
      (by omega) (by omega)
    rw [g6, List.append_assoc, hhead]
    show parse_xor_loop f1 (spine_at 4 t).1 (chain_toks 4 (spine_at 4 t).2 ++ rest)
      = some (t, rest)
    rw [hloop, spine_fold 4 t]

/-- A good printed form at level 3 or above parses back through
`_parse_or`. -/
theorem mk_m3 {t : Ast} (hg : good t = true)
    (m4 : 4 ≤ lvl_top t → ∀ rest f, cont_lvl rest < 4 →
      8 * (ptTok t).length + 5 ≤ f →
      parse_xor f (ptTok t ++ rest) = some (t, rest))
    (hsub : ∀ s : Ast, sizeOf s < sizeOf t → good s = true → ParserFacts s) :
    3 ≤ lvl_top t → ∀ rest f, cont_lvl rest < 3 →
      8 * (ptTok t).length + 6 ≤ f →
      parse_or f (ptTok t ++ rest) = some (t, rest) := by
  intro hL rest f hc hf
  obtain ⟨f1, rfl⟩ : ∃ f1, f = f1 + 1 := ⟨f - 1, by omega⟩
  show (match parse_xor f1 (ptTok t ++ rest) with
    | none => none
    | some (l, ts2) => parse_or_loop f1 l ts2) = some (t, rest)
  by_cases h4 : 4 ≤ lvl_top t
  · rw [m4 h4 rest f1 (by omega) (by omega)]
    exact stop3 (by omega) (by omega)
  · have hL3 : lvl_top t = 3 := by omega
    obtain ⟨g1, g2, g3, g4, g5, g6⟩ := spine_props 3 (by norm_num) (by norm_num) t hg hL3
    have hlen : (ptTok t).length
        = (pw 3 (spine_at 3 t).1).length + (chain_toks 3 (spine_at 3 t).2).length := by
      rw [g6]
      simp
    have hcont : cont_lvl (chain_toks 3 (spine_at 3 t).2 ++ rest) < 4 := by
      have := cont_chain_le (spine_at 3 t).2 rest (fun q hq => (g5 q hq).1) (by omega)
      omega
    have hhead := (hsub _ g3 g1).wat3 g2 (chain_toks 3 (spine_at 3 t).2 ++ rest) f1
      hcont (by omega)
    have hloop := loop3 (spine_at 3 t).2 (spine_at 3 t).1 rest f1
      (fun p hp => by
        obtain ⟨a1, a2, a3, a4⟩ := g5 p hp
        exact ⟨a1, (hsub _ a4 a2).wat3 a3⟩)
      (by omega) (by omega)
    rw [g6, List.append_assoc, hhead]
    show parse_or_loop f1 (spine_at 3 t).1 (chain_toks 3 (spine_at 3 t).2 ++ rest)
      = some (t, rest)
    rw [hloop, spine_fold 3 t]

/-- A good printed form at level 2 or above parses back through
`_parse_implies` (implication is right associative, both operands
printed parenthesised when binary). -/
theorem mk_m2 {t : Ast} (hg : good t = true)
    (m3 : 3 ≤ lvl_top t → ∀ rest f, cont_lvl rest < 3 →
      8 * (ptTok t).length + 6 ≤ f →
      parse_or f (ptTok t ++ rest) = some (t, rest))
    (hsub : ∀ s : Ast, sizeOf s < sizeOf t → good s = true → ParserFacts s) :
    2 ≤ lvl_top t → ∀ rest f, cont_lvl rest < 2 →
      8 * (ptTok t).length + 7 ≤ f →
      parse_implies f (ptTok t ++ rest) = some (t, rest) := by
  intro hL rest f hc hf
  obtain ⟨f1, rfl⟩ : ∃ f1, f = f1 + 1 := ⟨f - 1, by omega⟩
  by_cases h3 : 3 ≤ lvl_top t
  · show (match parse_or f1 (ptTok t ++ rest) with
      | none => none
      | some (l2, ts2) =>
        match ts2 with
        | Tok.IMPLIES :: ts3 =>
          (match parse_implies f1 ts3 with
            | none => none
            | some (r2, rest2) => some (Ast.BIN .IMPLIES l2 r2, rest2))
        | _ => some (l2, ts2)) = some (t, rest)
    rw [m3 h3 rest f1 (by omega) (by omega)]
    cases rest with
    | nil => rfl
    | cons tk ts => cases tk <;> first | rfl | (simp [cont_lvl] at hc)
  · have hL2 : lvl_top t = 2 := by omega
    cases t with
    | PROP c => simp [lvl_top] at hL2
    | NOT a => simp [lvl_top] at hL2
    | BIN kd l r =>
      have hk : kd = .IMPLIES := by
        simp only [lvl_top] at hL2
        cases kd <;> simp [prec] at hL2 ⊢
      subst hk
      simp only [good, Bool.and_eq_true] at hg
      have hl := hsub l (by simp only [Ast.BIN.sizeOf_spec]; omega) hg.1.1
      have hr := hsub r (by simp only [Ast.BIN.sizeOf_spec]; omega) hg.1.2
      have hpt : ptTok (Ast.BIN .IMPLIES l r)
          = pw 6 l ++ Tok.IMPLIES :: pw 6 r := by
        rw [pt_bin_12 _ l r (by simp [prec])]
        rfl
      have hlen : (ptTok (Ast.BIN .IMPLIES l r)).length
          = (pw 6 l).length + 1 + (pw 6 r).length := by
        rw [hpt]
        simp
        omega
      rw [hpt]
      rw [show (pw 6 l ++ Tok.IMPLIES :: pw 6 r) ++ rest
        = pw 6 l ++ (Tok.IMPLIES :: (pw 6 r ++ rest)) by simp]
      show (match parse_or f1 (pw 6 l ++ (Tok.IMPLIES :: (pw 6 r ++ rest))) with
        | none => none
        | some (l2, ts2) =>
          match ts2 with
          | Tok.IMPLIES :: ts3 =>
            (match parse_implies f1 ts3 with
              | none => none
              | some (r2, rest2) => some (Ast.BIN .IMPLIES l2 r2, rest2))
          | _ => some (l2, ts2)) = some (Ast.BIN .IMPLIES l r, rest)
      rw [hl.wat2or (Tok.IMPLIES :: (pw 6 r ++ rest)) f1 (by simp [cont_lvl])
        (by omega)]
      show (match parse_implies f1 (pw 6 r ++ rest) with
        | none => none
        | some (r2, rest2) => some (Ast.BIN .IMPLIES l r2, rest2))
        = some (Ast.BIN .IMPLIES l r, rest)
      rw [hr.wat2 rest f1 (by omega) (by omega)]

/-- A good printed form parses back through `_parse_iff` when nothing
follows that could extend the parse. -/
theorem mk_m1 {t : Ast} (hg : good t = true)
    (m2 : 2 ≤ lvl_top t → ∀ rest f, cont_lvl rest < 2 →
      8 * (ptTok t).length + 7 ≤ f →
      parse_implies f (ptTok t ++ rest) = some (t, rest))
    (hsub : ∀ s : Ast, sizeOf s < sizeOf t → good s = true → ParserFacts s) :
    ∀ rest f, cont_lvl rest = 0 → 8 * (ptTok t).length + 8 ≤ f →
      parse_iff f (ptTok t ++ rest) = some (t, rest) := by
  intro rest f hc hf
  obtain ⟨f1, rfl⟩ : ∃ f1, f = f1 + 1 := ⟨f - 1, by omega⟩
  by_cases h2 : 2 ≤ lvl_top t
  · show (match parse_implies f1 (ptTok t ++ rest) with
      | none => none
      | some (l2, ts2) => parse_iff_loop f1 l2 ts2) = some (t, rest)
    rw [m2 h2 rest f1 (by omega) (by omega)]
    exact stop1 (by omega) (by omega)
  · have hL1 : lvl_top t = 1 := by
      have := lvl_top_le t
      omega
    cases t with
    | PROP c => simp [lvl_top] at hL1
    | NOT a => simp [lvl_top] at hL1
    | BIN kd l r =>
      have hk : kd = .IFF := by
        simp only [lvl_top] at hL1
        cases kd <;> simp [prec] at hL1 ⊢
      subst hk
      simp only [good, Bool.and_eq_true] at hg
      have hl := hsub l (by simp only [Ast.BIN.sizeOf_spec]; omega) hg.1.1
      have hr := hsub r (by simp only [Ast.BIN.sizeOf_spec]; omega) hg.1.2
      have hpt : ptTok (Ast.BIN .IFF l r) = pw 6 l ++ Tok.IFF :: pw 6 r := by
        rw [pt_bin_12 _ l r (by simp [prec])]
        rfl
      have hlen : (ptTok (Ast.BIN .IFF l r)).length
          = (pw 6 l).length + 1 + (pw 6 r).length := by
        rw [hpt]
        simp
        omega
      rw [hpt]
      rw [show (pw 6 l ++ Tok.IFF :: pw 6 r) ++ rest
        = pw 6 l ++ (Tok.IFF :: (pw 6 r ++ rest)) by simp]
      show (match parse_implies f1 (pw 6 l ++ (Tok.IFF :: (pw 6 r ++ rest))) with
        | none => none
        | some (l2, ts2) => parse_iff_loop f1 l2 ts2) = some (Ast.BIN .IFF l r, rest)
      rw [hl.wat2 (Tok.IFF :: (pw 6 r ++ rest)) f1 (by simp [cont_lvl]) (by omega)]
      obtain ⟨f2, rfl⟩ : ∃ f2, f1 = f2 + 1 := ⟨f1 - 1, by omega⟩
      show (match parse_implies f2 (pw 6 r ++ rest) with
        | none => none
        | some (r2, ts2) => parse_iff_loop f2 (Ast.BIN .IFF l r2) ts2)
        = some (Ast.BIN .IFF l r, rest)
      rw [hr.wat2 rest f2 (by omega) (by omega)]
      exact stop1 (by omega) (by omega)


/-- Master round-trip lemma: the printed form of every good AST parses
back to exactly that AST, at every level, bare or parenthesised. -/
theorem parser_master : ∀ (n : Nat) (t : Ast), sizeOf t ≤ n → good t = true →
    ParserFacts t := by
  intro n
  induction n with
  | zero =>
    intro t ht _
    exfalso
    cases t <;> simp_arith at ht
  | succ n ih =>
    intro t ht hg
    have hsub : ∀ s : Ast, sizeOf s < sizeOf t → good s = true → ParserFacts s :=
      fun s hs hgs => ih s (by omega) hgs
    have M6 := mk_m6 hg hsub
    have M5 := mk_m5 hg M6 hsub
    have M4 := mk_m4 hg M5 hsub
    have M3 := mk_m3 hg M4 hsub
    have M2 := mk_m2 hg M3 hsub
    have M1 := mk_m1 hg M2 hsub
    have W7 := mk_wr7 M1
    have W6 := mk_wr6 W7
    have W5 := mk_wr5 W6
    have W4 := mk_wr4 W5
    have W3 := mk_wr3 W4
    have W2 := mk_wr2 W3
    exact ⟨M6, M5, M4, M3, M2, M1, W7, W6, W5, W4, W3, W2,
      mk_wat5 M6 W6, mk_wat4 M5 W5, mk_wat3 M4 W4, mk_wat2or M3 W3,
      mk_wat2 M2 W2⟩

/-- An uppercase character is not whitespace. -/
theorem upper_not_space {c : Char} (h : c.isUpper = true) :
    pyIsSpace c = false := by
  by_contra hs
  rw [Bool.not_eq_false] at hs
  simp only [pyIsSpace, Bool.or_eq_true, decide_eq_true_eq] at hs
  rcases hs with ((((rfl | rfl) | rfl) | rfl) | rfl) | rfl <;> exact absurd h (by decide)

/-- The printer emits at least one character for every AST. -/
theorem to_chars_len_pos (t : Ast) : 1 ≤ (to_chars t).length := by
  cases t with
  | PROP c => simp [to_chars]
  | NOT a => simp [to_chars]
  | BIN kd l r =>
    simp only [to_chars, List.length_append, List.length_cons]
    omega

/-- The first printed character is never whitespace. -/
theorem to_chars_head : ∀ t : Ast, props_upper t = true →
    ∀ c cs2, to_chars t = c :: cs2 → pyIsSpace c = false := by
  intro t
  induction t with
  | PROP ch =>
    intro hp c cs2 h
    simp only [props_upper] at hp
    simp only [to_chars, List.cons.injEq] at h
    obtain ⟨rfl, -⟩ := h
    exact upper_not_space hp
  | NOT a ih =>
    intro hp c cs2 h
    simp only [to_chars, List.cons.injEq] at h
    obtain ⟨rfl, -⟩ := h
    decide
  | BIN kd l r ihl ihr =>
    intro hp c cs2 h
    simp only [props_upper, Bool.and_eq_true] at hp
    simp only [to_chars] at h
    by_cases hnl : needs_parens l kd true = true
    · rw [if_pos hnl] at h
      simp only [List.cons_append, List.cons.injEq] at h
      obtain ⟨rfl, -⟩ := h
      decide
    · rw [if_neg hnl] at h
      cases hl : to_chars l with
      | nil =>
        have := to_chars_len_pos l
        rw [hl] at this
        simp at this
      | cons b bs =>
        rw [hl] at h
        simp only [List.cons_append, List.cons.injEq] at h
        obtain ⟨rfl, -⟩ := h
        exact ihl hp.1 b bs hl

/-- The last printed character is never whitespace. -/
theorem to_chars_last : ∀ t : Ast, props_upper t = true →
    ∀ c cs2, (to_chars t).reverse = c :: cs2 → pyIsSpace c = false := by
  intro t
  induction t with
  | PROP ch =>
    intro hp c cs2 h
    simp only [props_upper] at hp
    simp only [to_chars, List.reverse_singleton, List.cons.injEq] at h
    obtain ⟨rfl, -⟩ := h
    exact upper_not_space hp
  | NOT a ih =>
    intro hp c cs2 h
    simp only [props_upper] at hp
    simp only [to_chars] at h
    rw [List.reverse_cons] at h
    by_cases ha : is_atomic_or_not a = true
    · rw [if_pos ha] at h
      cases hrev : (to_chars a).reverse with
      | nil =>
        have h0 : (to_chars a).length = 0 := by
          rw [← List.length_reverse, hrev]
          rfl
        have := to_chars_len_pos a
        omega
      | cons b bs =>
        rw [hrev] at h
        simp only [List.cons_append, List.cons.injEq] at h
        obtain ⟨rfl, -⟩ := h
        exact ih hp b bs hrev
    · rw [if_neg ha] at h
      rw [List.reverse_cons, List.reverse_append] at h
      simp only [List.reverse_singleton, List.singleton_append, List.cons_append,
        List.append_assoc, List.cons.injEq] at h
      obtain ⟨rfl, -⟩ := h
      decide
  | BIN kd l r ihl ihr =>
    intro hp c cs2 h
    simp only [props_upper, Bool.and_eq_true] at hp
    simp only [to_chars] at h
    rw [List.reverse_append, List.reverse_cons, List.reverse_cons,
      List.reverse_cons] at h
    by_cases hnr : needs_parens r kd false = true
    · rw [if_pos hnr] at h
      rw [List.reverse_cons, List.reverse_append] at h
      simp only [List.reverse_singleton, List.singleton_append, List.cons_append,
        List.append_assoc, List.cons.injEq] at h
      obtain ⟨rfl, -⟩ := h
      decide
    · rw [if_neg hnr] at h
      cases hrev : (to_chars r).reverse with
      | nil =>
        have h0 : (to_chars r).length = 0 := by
          rw [← List.length_reverse, hrev]
          rfl
        have := to_chars_len_pos r
        omega
      | cons b bs =>
        rw [hrev] at h
        simp only [List.cons_append, List.append_assoc, List.cons.injEq] at h
        obtain ⟨rfl, -⟩ := h
        exact ihr hp.2 b bs hrev

/-- `str.strip()` is the identity on a string that neither starts nor
ends with whitespace. -/
theorem strip_noop {cs : List Char}
    (h1 : ∀ c cs2, cs = c :: cs2 → pyIsSpace c = false)
    (h2 : ∀ c cs2, cs.reverse = c :: cs2 → pyIsSpace c = false) :
    pyStrip cs = cs := by
  have e1 : cs.dropWhile pyIsSpace = cs := by
    cases h : cs with
    | nil => rfl
    | cons a l => simp [List.dropWhile_cons, h1 a l h]
  have e2 : cs.reverse.dropWhile pyIsSpace = cs.reverse := by
    cases h : cs.reverse with
    | nil => rfl
    | cons a l => simp [List.dropWhile_cons, h2 a l h]
  unfold pyStrip
  rw [e1, e2, List.reverse_reverse]

/-- `_tokenize` processes a prefix of printable characters one-for-one,
independent of what follows (none of them engage the `->`/`<->`
lookahead). -/
theorem tok_simple : ∀ (cs cs2 : List Char), (∀ c ∈ cs, simple_char c = true) →
    tokenize (cs ++ cs2)
      = (tokenize cs2).map (fun ts => cs.filterMap char_tok ++ ts) := by
  intro cs
  induction cs with
  | nil =>
    intro cs2 _
    simp only [List.nil_append, List.filterMap_nil]
    cases htk : tokenize cs2 <;> rfl
  | cons c cs ih =>
    intro cs2 hall
    have hc := hall c (List.mem_cons_self _ _)
    have hrest := fun d hd => hall d (List.mem_cons_of_mem _ hd)
    simp only [simple_char, Bool.or_eq_true, decide_eq_true_eq] at hc
    rw [List.cons_append]
    rcases hc with ((((((((((rfl | hu) | rfl) | rfl) | rfl) | rfl) | rfl) | rfl)
        | rfl) | rfl) | rfl) | rfl
    · have e : tokenize (' ' :: (cs ++ cs2)) = tokenize (cs ++ cs2) := by
        rw [tokenize.eq_def]
        rfl
      have e2 : List.filterMap char_tok (' ' :: cs) = List.filterMap char_tok cs := by
        rw [List.filterMap_cons]
        rfl
      rw [e, e2]
      exact ih cs2 hrest
    · have hs := upper_not_space hu
      have e : tokenize (c :: (cs ++ cs2))
          = (tokenize (cs ++ cs2)).map (Tok.PROP c :: ·) := by
        rw [tokenize.eq_def]
        simp [hs, hu]
      have e2 : List.filterMap char_tok (c :: cs)
          = Tok.PROP c :: List.filterMap char_tok cs := by
        rw [List.filterMap_cons, char_tok.eq_def]
        simp [hs, hu]
      rw [e, ih cs2 hrest, e2]
      cases htk : tokenize cs2 <;> rfl
    · have e : tokenize ('∧' :: (cs ++ cs2))
          = (tokenize (cs ++ cs2)).map (Tok.AND :: ·) := by
        rw [tokenize.eq_def]
        rfl
      have e2 : List.filterMap char_tok ('∧' :: cs)
          = Tok.AND :: List.filterMap char_tok cs := by
        rw [List.filterMap_cons]
        rfl
      rw [e, ih cs2 hrest, e2]
      cases htk : tokenize cs2 <;> rfl
    · have e : tokenize ('∨' :: (cs ++ cs2))
          = (tokenize (cs ++ cs2)).map (Tok.OR :: ·) := by
        rw [tokenize.eq_def]
        rfl
      have e2 : List.filterMap char_tok ('∨' :: cs)
          = Tok.OR :: List.filterMap char_tok cs := by
        rw [List.filterMap_cons]
        rfl
      rw [e, ih cs2 hrest, e2]
      cases htk : tokenize cs2 <;> rfl
    · have e : tokenize ('¬' :: (cs ++ cs2))
          = (tokenize (cs ++ cs2)).map (Tok.NOT :: ·) := by
        rw [tokenize.eq_def]
        rfl
      have e2 : List.filterMap char_tok ('¬' :: cs)
          = Tok.NOT :: List.filterMap char_tok cs := by
        rw [List.filterMap_cons]
        rfl
      rw [e, ih cs2 hrest, e2]
      cases htk : tokenize cs2 <;> rfl
    · have e : tokenize ('→' :: (cs ++ cs2))
          = (tokenize (cs ++ cs2)).map (Tok.IMPLIES :: ·) := by
        rw [tokenize.eq_def]
        rfl
      have e2 : List.filterMap char_tok ('→' :: cs)
          = Tok.IMPLIES :: List.filterMap char_tok cs := by
        rw [List.filterMap_cons]
        rfl
      rw [e, ih cs2 hrest, e2]
      cases htk : tokenize cs2 <;> rfl
    · have e : tokenize ('↔' :: (cs ++ cs2))
          = (tokenize (cs ++ cs2)).map (Tok.IFF :: ·) := by
        rw [tokenize.eq_def]
        rfl
      have e2 : List.filterMap char_tok ('↔' :: cs)
          = Tok.IFF :: List.filterMap char_tok cs := by
        rw [List.filterMap_cons]
        rfl
      rw [e, ih cs2 hrest, e2]
      cases htk : tokenize cs2 <;> rfl
    · have e : tokenize ('⊕' :: (cs ++ cs2))
          = (tokenize (cs ++ cs2)).map (Tok.XOR :: ·) := by
        rw [tokenize.eq_def]
        rfl
      have e2 : List.filterMap char_tok ('⊕' :: cs)
          = Tok.XOR :: List.filterMap char_tok cs := by
        rw [List.filterMap_cons]
        rfl
      rw [e, ih cs2 hrest, e2]
      cases htk : tokenize cs2 <;> rfl
    · have e : tokenize ('↑' :: (cs ++ cs2))
          = (tokenize (cs ++ cs2)).map (Tok.NAND :: ·) := by
        rw [tokenize.eq_def]
        rfl
      have e2 : List.filterMap char_tok ('↑' :: cs)
          = Tok.NAND :: List.filterMap char_tok cs := by
        rw [List.filterMap_cons]
        rfl
      rw [e, ih cs2 hrest, e2]
      cases htk : tokenize cs2 <;> rfl
    · have e : tokenize ('↓' :: (cs ++ cs2))
          = (tokenize (cs ++ cs2)).map (Tok.NOR :: ·) := by
        rw [tokenize.eq_def]
        rfl
      have e2 : List.filterMap char_tok ('↓' :: cs)
          = Tok.NOR :: List.filterMap char_tok cs := by
        rw [List.filterMap_cons]
        rfl
      rw [e, ih cs2 hrest, e2]
      cases htk : tokenize cs2 <;> rfl
    · have e : tokenize ('(' :: (cs ++ cs2))
          = (tokenize (cs ++ cs2)).map (Tok.LPAREN :: ·) := by
        rw [tokenize.eq_def]
        rfl
      have e2 : List.filterMap char_tok ('(' :: cs)
          = Tok.LPAREN :: List.filterMap char_tok cs := by
        rw [List.filterMap_cons]
        rfl
      rw [e, ih cs2 hrest, e2]
      cases htk : tokenize cs2 <;> rfl
    · have e : tokenize (')' :: (cs ++ cs2))
          = (tokenize (cs ++ cs2)).map (Tok.RPAREN :: ·) := by
        rw [tokenize.eq_def]
        rfl
      have e2 : List.filterMap char_tok (')' :: cs)
          = Tok.RPAREN :: List.filterMap char_tok cs := by
        rw [List.filterMap_cons]
        rfl
      rw [e, ih cs2 hrest, e2]
      cases htk : tokenize cs2 <;> rfl

/-- Every printed character is printable. -/
theorem to_chars_simple : ∀ t : Ast, props_upper t = true →
    ∀ c ∈ to_chars t, simple_char c = true := by
  intro t
  induction t with
  | PROP ch =>
    intro hp c hc
    simp only [props_upper] at hp
    simp only [to_chars, List.mem_singleton] at hc
    subst hc
    simp [simple_char, hp]
  | NOT a ih =>
    intro hp c hc
    simp only [props_upper] at hp
    simp only [to_chars] at hc
    rcases List.mem_cons.mp hc with rfl | hc
    · decide
    · split at hc
      · exact ih hp c hc
      · rcases List.mem_cons.mp hc with rfl | hc
        · decide
        · rcases List.mem_append.mp hc with hc | hc
          · exact ih hp c hc
          · simp only [List.mem_singleton] at hc
            subst hc
            decide
  | BIN kd l r ihl ihr =>
    intro hp c hc
    simp only [props_upper, Bool.and_eq_true] at hp
    simp only [to_chars] at hc
    rcases List.mem_append.mp hc with hc | hc
    · split at hc
      · rcases List.mem_cons.mp hc with rfl | hc
        · decide
        · rcases List.mem_append.mp hc with hc | hc
          · exact ihl hp.1 c hc
          · simp only [List.mem_singleton] at hc
            subst hc
            decide
      · exact ihl hp.1 c hc
    · rcases List.mem_cons.mp hc with rfl | hc
      · decide
      · rcases List.mem_cons.mp hc with rfl | hc
        · cases kd <;> decide
        · rcases List.mem_cons.mp hc with rfl | hc
          · decide
          · split at hc
            · rcases List.mem_cons.mp hc with rfl | hc
              · decide
              · rcases List.mem_append.mp hc with hc | hc
                · exact ihr hp.2 c hc
                · simp only [List.mem_singleton] at hc
                  subst hc
                  decide
            · exact ihr hp.2 c hc

/-- Re-tokenizing the printed characters yields exactly the printed
token run. -/
theorem filterMap_to_chars : ∀ t : Ast, props_upper t = true →
    List.filterMap char_tok (to_chars t) = ptTok t := by
  intro t
  induction t with
  | PROP c =>
    intro hp
    simp only [props_upper] at hp
    have hs := upper_not_space hp
    simp [to_chars, ptTok, List.filterMap_cons, char_tok, hs, hp]
  | NOT a ih =>
    intro hp
    simp only [props_upper] at hp
    by_cases ha : is_atomic_or_not a = true
    · simp [to_chars, ptTok, ha, List.filterMap_cons,
        show char_tok '¬' = some Tok.NOT from rfl, ih hp]
    · simp [to_chars, ptTok, ha, List.filterMap_cons, List.filterMap_append,
        show char_tok '¬' = some Tok.NOT from rfl,
        show char_tok '(' = some Tok.LPAREN from rfl,
        show char_tok ')' = some Tok.RPAREN from rfl, ih hp]
  | BIN kd l r ihl ihr =>
    intro hp
    simp only [props_upper, Bool.and_eq_true] at hp
    have hop : char_tok (op_char kd) = some (ptTok.op_tok kd) := by
      cases kd <;> rfl
    by_cases hnl : needs_parens l kd true = true <;>
      by_cases hnr : needs_parens r kd false = true <;>
      simp [to_chars, ptTok, hnl, hnr, List.filterMap_append, List.filterMap_cons,
        hop, show char_tok ' ' = none from rfl,
        show char_tok '(' = some Tok.LPAREN from rfl,
        show char_tok ')' = some Tok.RPAREN from rfl, ihl hp.1, ihr hp.2]


/-- `Formula._parse` inverts the printer on every good AST. -/
theorem parse_chars_to_chars (t : Ast) (hp : props_upper t = true)
    (hg : good t = true) : parse_chars (to_chars t) = some t := by
  have htok : tokenize (to_chars t) = some (ptTok t) := by
    have h := tok_simple (to_chars t) [] (to_chars_simple t hp)
    rw [List.append_nil] at h
    rw [h, filterMap_to_chars t hp,
      show tokenize ([] : List Char) = some [] from by rw [tokenize.eq_def]]
    simp
  have hpf : ParserFacts t := parser_master (sizeOf t) t le_rfl hg
  have hm1 := hpf.m1 [] (fuelFor (ptTok t)) rfl (by simp [fuelFor])
  rw [List.append_nil] at hm1
  unfold parse_chars
  rw [htok]
  cases hpt : ptTok t with
  | nil =>
    have := pt_len_pos t
    rw [hpt] at this
    simp at this
  | cons a l =>
    rw [hpt] at hm1
    show (match parse_iff (fuelFor (a :: l)) (a :: l) with
      | some (x, []) => some x
      | _ => none) = some t
    rw [hm1]

/-- C2 (amended): round trip holds on the reassociation-free class.
For every AST the parser can produce (atoms are single uppercase
letters) in which no `AND`/`NAND`/`OR`/`NOR`/`XOR` node has a right
operand whose top operator binds at the same precedence level,
re-parsing the printed form (`Formula(str(f))` via `to_string`)
returns a structurally identical AST. -/
theorem C2_roundtrip_amended (t : Ast) (hp : props_upper t = true)
    (hg : good t = true) :
    (formula? (render t)).map Formula.ast = some t := by
  have hstrip : pyStrip (to_chars t) = to_chars t :=
    strip_noop (to_chars_head t hp) (to_chars_last t hp)
  have hpc := parse_chars_to_chars t hp hg
  have hlist : (render t).toList = to_chars t := rfl
  have hne : ∀ l : List Char, 1 ≤ l.length → l.isEmpty = false := by
    intro l hl
    cases l with
    | nil => simp at hl
    | cons a l2 => rfl
  simp only [formula?, hlist, hstrip]
  rw [hne (to_chars t) (to_chars_len_pos t)]
  simp only [Bool.false_eq_true, if_false]
  rw [hpc]
  rfl

/-- Witness for the amended C2 round trip at the concrete good AST
`A ∧ B`. -/
theorem C2_roundtrip_amended_witness :
    props_upper (.BIN .AND (.PROP 'A') (.PROP 'B')) = true
    ∧ good (.BIN .AND (.PROP 'A') (.PROP 'B')) = true
    ∧ (formula? (render (.BIN .AND (.PROP 'A') (.PROP 'B')))).map Formula.ast
        = some (.BIN .AND (.PROP 'A') (.PROP 'B')) :=
  ⟨by decide, by decide,
    C2_roundtrip_amended (.BIN .AND (.PROP 'A') (.PROP 'B')) (by decide) (by decide)⟩

end GPLC
